import Mathlib

/-!
Shallow embedding of the gofindme-server location fan-out subsystem:
the in-process `LocationBus` (src/services/bus.ts), the
`LocationBatcher` batching scheduler (src/services/location-batcher.ts)
and the group-resolution logic of the public location ingestion route
(src/routes/public/locations.ts, POST /locations handler).

Modelling conventions:
* A JavaScript `Map` is an insertion-ordered association list: `lookupA`
  returns the binding of the first matching key, `setA` replaces an
  existing binding in place (keeping its position) and appends a fresh
  key at the end, `eraseA` drops the binding — exactly the observable
  behaviour of `Map.get` / `Map.set` / `Map.delete` and of iteration
  order via `Map.entries()`.
* A JavaScript `Set` of strings is a duplicate-free list (`addElem`).
* A `Date` is a natural number of milliseconds since the Unix epoch;
  `new Date(0)` is `0` and `a > b` on dates compares those numbers.
* The location payload is an opaque type parameter `alpha`: neither the
  bus nor the batcher ever inspects its fields, they only move it around.
* A Node `EventEmitter` listener is a `Sink` with an identity `sid`
  (distinct closures are distinct sinks) and a `fails` flag saying
  whether invoking it throws. `emit` calls the registered listeners in
  order; a listener that throws synchronously aborts the emit — the
  remaining listeners are not called and the exception propagates to the
  caller of `emit` (Node's behaviour for a synchronous throw).
-/

namespace GoFindMe

/-- JS `Map.get`: the binding of the first matching key, if any. -/
def lookupA {kappa beta : Type} [DecidableEq kappa] : List (kappa × beta) → kappa → Option beta
  | [], _ => none
  | (k', v) :: rest, k => if k' = k then some v else lookupA rest k

/-- JS `Map.set`: replace the binding in place (keeping its position), else append. -/
def setA {kappa beta : Type} [DecidableEq kappa] : List (kappa × beta) → kappa → beta → List (kappa × beta)
  | [], k, v => [(k, v)]
  | (k', v') :: rest, k, v =>
    if k' = k then (k, v) :: rest else (k', v') :: setA rest k v

/-- JS `Map.delete`: drop the binding for a key. -/
def eraseA {kappa beta : Type} [DecidableEq kappa] : List (kappa × beta) → kappa → List (kappa × beta)
  | [], _ => []
  | (k', v) :: rest, k => if k' = k then eraseA rest k else (k', v) :: eraseA rest k

/-- JS `Set.add`: append the element if it is not already present. -/
def addElem {gamma : Type} [DecidableEq gamma] (l : List gamma) (x : gamma) : List gamma :=
  if x ∈ l then l else l ++ [x]

/-! ## The event bus (`LocationBus`, src/services/bus.ts) -/

/-- One registered `EventEmitter` listener: an identity plus whether invoking it throws. -/
structure Sink where
  sid : Nat
  fails : Bool
  deriving DecidableEq, Repr

/-- `SubscriberInfo` from bus.ts (`subscribedAt` as epoch milliseconds). -/
structure SubscriberInfo where
  apiKeyId : String
  groupId : String
  subscribedAt : Nat
  deriving DecidableEq, Repr

/-- The mutable state of the `LocationBus` singleton: the two tracking maps
plus the `EventEmitter` listener table inherited from `EventEmitter`. -/
structure BusState where
  activeSubscribers : List (String × List String)
  subscriberDetails : List (String × SubscriberInfo)
  listeners : List (String × List Sink)
  deriving DecidableEq, Repr

def initBus : BusState := ⟨[], [], []⟩

/-- The enriched event built by `publishLocation`:
`{ type: 'location', data: { ...payload, groupId } }`. -/
structure GroupEvent (alpha : Type) where
  groupId : String
  data : alpha
  deriving DecidableEq, Repr

/-- Node `EventEmitter.emit` over a listener list: call each listener in
order; a throwing listener aborts the emit and the exception propagates.
Returns the list of listeners that were invoked and whether a throw
escaped to the caller. -/
def emitRun : List Sink → List Sink × Bool
  | [] => ([], false)
  | k :: rest =>
    if k.fails then ([k], true)
    else
      let r := emitRun rest
      (k :: r.1, r.2)

/-- Result of a `publishLocation` call: the (unchanged) bus state, the
enriched event if one was constructed, the sinks that were invoked, and
whether an exception propagated to the publishing caller. -/
structure PublishResult (alpha : Type) where
  state : BusState
  event? : Option (GroupEvent alpha)
  invoked : List Sink
  threw : Bool
  deriving DecidableEq, Repr

/-- `LocationBus.publishLocation`: skip (no event constructed, nobody
invoked) unless the group has a non-empty subscriber set; otherwise build
the enriched event and emit it to the group's listeners. -/
def publishLocation {alpha : Type} (groupId : String) (payload : alpha) (s : BusState) :
    PublishResult alpha :=
  match lookupA s.activeSubscribers groupId with
  | none => ⟨s, none, [], false⟩
  | some subscribers =>
    if subscribers.isEmpty then ⟨s, none, [], false⟩
    else
      let r := emitRun ((lookupA s.listeners groupId).getD [])
      ⟨s, some ⟨groupId, payload⟩, r.1, r.2⟩

/-- `LocationBus.subscribe`: ensure the group's subscriber set exists, add
the API key id to it, overwrite the subscriber details, and append the
listener to the `EventEmitter` listener list (`this.on(groupId, listener)`). -/
def subscribe (groupId apiKeyId : String) (listener : Sink) (now : Nat) (s : BusState) :
    BusState :=
  let as0 :=
    if (lookupA s.activeSubscribers groupId).isSome then s.activeSubscribers
    else setA s.activeSubscribers groupId []
  let as1 := setA as0 groupId (addElem ((lookupA as0 groupId).getD []) apiKeyId)
  { activeSubscribers := as1
    subscriberDetails := setA s.subscriberDetails apiKeyId ⟨apiKeyId, groupId, now⟩
    listeners := setA s.listeners groupId (((lookupA s.listeners groupId).getD []) ++ [listener]) }

/-- Remove the most recently added occurrence of a listener, which is what
Node's `removeListener` does when the same function is registered twice. -/
def removeLastSink : List Sink → Sink → List Sink
  | [], _ => []
  | x :: xs, k =>
    if k ∈ xs then x :: removeLastSink xs k
    else if x = k then xs
    else x :: xs

/-- `LocationBus.unsubscribe` (the cancel function returned by `subscribe`
calls exactly this): `this.off(groupId, listener)`, remove the key from
the group's subscriber set (deleting the set when it becomes empty), and
drop the subscriber details. -/
def unsubscribe (groupId apiKeyId : String) (listener : Sink) (s : BusState) : BusState :=
  let ls :=
    match lookupA s.listeners groupId with
    | none => s.listeners
    | some l => setA s.listeners groupId (removeLastSink l listener)
  let as :=
    match lookupA s.activeSubscribers groupId with
    | none => s.activeSubscribers
    | some subs =>
      let subs' := subs.erase apiKeyId
      if subs'.isEmpty then eraseA s.activeSubscribers groupId
      else setA s.activeSubscribers groupId subs'
  { activeSubscribers := as
    subscriberDetails := eraseA s.subscriberDetails apiKeyId
    listeners := ls }

/-- `LocationBus.getSubscriberCount`. -/
def getSubscriberCount (groupId : String) (s : BusState) : Nat :=
  ((lookupA s.activeSubscribers groupId).getD []).length

/-- `LocationBus.hasSubscribers`. -/
def hasSubscribers (groupId : String) (s : BusState) : Bool :=
  decide (0 < getSubscriberCount groupId s)

/-- The `forEach` loop of `publishLocationToGroups`: publish to each group
in turn; a sink exception thrown inside one `publishLocation` aborts the
loop and propagates. Returns the final state, the per-group invoked sinks,
and whether a throw escaped. -/
def publishToGroupsGo {alpha : Type} (payload : alpha) :
    List String → BusState → BusState × List (String × List Sink) × Bool
  | [], s => (s, [], false)
  | g :: rest, s =>
    let r := publishLocation g payload s
    if r.threw then (r.state, [(g, r.invoked)], true)
    else
      let t := publishToGroupsGo payload rest r.state
      (t.1, (g, r.invoked) :: t.2.1, t.2.2)

/-- `LocationBus.publishLocationToGroups`: filter the target list down to
groups with a non-empty subscriber set, then publish to each. -/
def publishLocationToGroups {alpha : Type} (groupIds : List String) (payload : alpha)
    (s : BusState) : BusState × List (String × List Sink) × Bool :=
  let groupsWithSubscribers := groupIds.filter (fun g =>
    match lookupA s.activeSubscribers g with
    | none => false
    | some subs => !subs.isEmpty)
  publishToGroupsGo payload groupsWithSubscribers s

/-! ## The batching scheduler (`LocationBatcher`, src/services/location-batcher.ts) -/

/-- `QueuedLocationUpdate` (queuedAt as epoch milliseconds). -/
structure QueuedLocationUpdate (alpha : Type) where
  payload : alpha
  userId : String
  deviceId : String
  queuedAt : Nat
  deriving DecidableEq, Repr

/-- The mutable state of the `LocationBatcher` singleton. `intervalTimers`
keeps only the key set of the timer map (the timer handles themselves have
no observable state). -/
structure BatcherState (alpha : Type) where
  groupQueues : List (String × List (QueuedLocationUpdate alpha))
  lastPublished : List (String × Nat)
  groupFrequencies : List (String × Nat)
  intervalTimers : List Nat
  frequencies : List Nat
  deriving DecidableEq, Repr

def initBatcher {alpha : Type} : BatcherState alpha := ⟨[], [], [], [], []⟩

/-- The dedup key the flush builds: the string `userId:deviceId`
(note: a concatenated string, not the pair itself). -/
def qKey {alpha : Type} (u : QueuedLocationUpdate alpha) : String :=
  u.userId ++ ":" ++ u.deviceId

/-- The `latestUpdates` fold of `publishQueuedUpdates`: walk the queue,
keeping per key the entry with the strictly greatest `queuedAt`
(`update.queuedAt > existing.queuedAt`; ties keep the earlier entry). -/
def collectLatest {alpha : Type} :
    List (QueuedLocationUpdate alpha) → List (String × QueuedLocationUpdate alpha) →
    List (String × QueuedLocationUpdate alpha)
  | [], acc => acc
  | u :: rest, acc =>
    match lookupA acc (qKey u) with
    | none => collectLatest rest (acc ++ [(qKey u, u)])
    | some existing =>
      if existing.queuedAt < u.queuedAt then collectLatest rest (setA acc (qKey u) u)
      else collectLatest rest acc

/-- `LocationBatcher.publishQueuedUpdates`: nothing to do when the group's
queue is missing or empty (note: in that case the last-published stamp is
NOT updated); otherwise deduplicate, hand each surviving payload to
`locationBus.publishLocation` (collected in the output list), clear the
queue and stamp `lastPublished` with `now`. -/
def publishQueuedUpdates {alpha : Type} (groupId : String) (now : Nat)
    (s : BatcherState alpha) : BatcherState alpha × List (String × alpha) :=
  match lookupA s.groupQueues groupId with
  | none => (s, [])
  | some queue =>
    if queue.isEmpty then (s, [])
    else
      let latest := collectLatest queue []
      let out := latest.map (fun kv => (groupId, kv.2.payload))
      ({ s with
          groupQueues := setA s.groupQueues groupId []
          lastPublished := setA s.lastPublished groupId now }, out)

/-- The due-check of the flush loop: a group with no last-published stamp
has `timeSinceLastPublished = Infinity` and is always due; otherwise it is
due when at least `frequencyMs` milliseconds have elapsed since the stamp
(`Date` subtraction on epoch-millisecond numbers). -/
def dueB {alpha : Type} (frequencyMs now : Nat) (s : BatcherState alpha) (g : String) : Bool :=
  match lookupA s.lastPublished g with
  | none => true
  | some lp => decide (frequencyMs ≤ now - lp)

/-- The loop over `this.groupFrequencies.entries()` in
`processQueuesAtFrequency`, over a snapshot of the entries (the loop body
never touches `groupFrequencies`): a due group with a matching frequency
is flushed. -/
def processEntries {alpha : Type} (frequencyMs now : Nat) :
    List (String × Nat) → BatcherState alpha → BatcherState alpha × List (String × alpha)
  | [], s => (s, [])
  | (g, f) :: rest, s =>
    if f = frequencyMs then
      if dueB frequencyMs now s g then
        let r := publishQueuedUpdates g now s
        let t := processEntries frequencyMs now rest r.1
        (t.1, r.2 ++ t.2)
      else processEntries frequencyMs now rest s
    else processEntries frequencyMs now rest s

/-- `LocationBatcher.processQueuesAtFrequency`. -/
def processQueuesAtFrequency {alpha : Type} (frequencyMs now : Nat) (s : BatcherState alpha) :
    BatcherState alpha × List (String × alpha) :=
  processEntries frequencyMs now s.groupFrequencies s

/-- The state-updating half of `queueLocationUpdate`, before
`ensureIntervalTimer`: ensure the queue exists (a new group starts with
`lastPublished = new Date(0)`), record the frequency, and coalesce the
queue to at most one entry per exact `(userId, deviceId)` pair before
appending the new entry. -/
def enqueueCore {alpha : Type} (groupId : String) (payload : alpha)
    (userId deviceId : String) (frequencyMs now : Nat) (s : BatcherState alpha) :
    BatcherState alpha :=
  let s1 :=
    if (lookupA s.groupQueues groupId).isSome then s
    else { s with
            groupQueues := setA s.groupQueues groupId []
            lastPublished := setA s.lastPublished groupId 0 }
  let s2 := { s1 with
              groupFrequencies := setA s1.groupFrequencies groupId frequencyMs
              frequencies := addElem s1.frequencies frequencyMs }
  let queue := (lookupA s2.groupQueues groupId).getD []
  let filtered := queue.filter (fun u => !(decide (u.userId = userId ∧ u.deviceId = deviceId)))
  { s2 with
    groupQueues := setA s2.groupQueues groupId
      (filtered ++ [⟨payload, userId, deviceId, now⟩]) }

/-- `LocationBatcher.queueLocationUpdate`: the enqueue part
(`enqueueCore`) followed by `ensureIntervalTimer`: when no timer exists
for the frequency yet, process that frequency immediately and then record
the timer. -/
def queueLocationUpdate {alpha : Type} (groupId : String) (payload : alpha)
    (userId deviceId : String) (frequencySeconds : Nat) (now : Nat)
    (s : BatcherState alpha) : BatcherState alpha × List (String × alpha) :=
  let frequencyMs := frequencySeconds * 1000
  let s3 := enqueueCore groupId payload userId deviceId frequencyMs now s
  if s3.intervalTimers.contains frequencyMs then (s3, [])
  else
    let r := processQueuesAtFrequency frequencyMs now s3
    ({ r.1 with intervalTimers := r.1.intervalTimers ++ [frequencyMs] }, r.2)

/-- External events driving the batcher: a `queueLocationUpdate` call or a
`setInterval` timer tick for one frequency bucket, each at a wall-clock
time in epoch milliseconds. -/
inductive BEvent (alpha : Type) where
  | queue (groupId : String) (payload : alpha) (userId deviceId : String)
      (frequencySeconds : Nat) (t : Nat)
  | tick (frequencyMs : Nat) (t : Nat)
  deriving DecidableEq, Repr

/-- Tag a list of bus publishes with the wall-clock time they happened at. -/
def tagT {alpha : Type} (out : List (String × alpha)) (t : Nat) : List (String × alpha × Nat) :=
  out.map (fun gp => (gp.1, gp.2, t))

/-- One batcher step; every `publishLocation` call emitted by the step is
logged together with the step's wall-clock time. -/
def stepB {alpha : Type} : BEvent alpha → BatcherState alpha →
    BatcherState alpha × List (String × alpha × Nat)
  | .queue g p u d fs t, s =>
    let r := queueLocationUpdate g p u d fs t s
    (r.1, tagT r.2 t)
  | .tick fm t, s =>
    let r := processQueuesAtFrequency fm t s
    (r.1, tagT r.2 t)

/-- Run a sequence of batcher events, concatenating the publish logs. -/
def runB {alpha : Type} : List (BEvent alpha) → BatcherState alpha →
    BatcherState alpha × List (String × alpha × Nat)
  | [], s => (s, [])
  | e :: rest, s =>
    let r := stepB e s
    let t := runB rest r.1
    (t.1, r.2 ++ t.2)

/-- The payload of the last `queueLocationUpdate` event for a given
(group, user, device) triple in an event sequence, if any. This is the
specification-side reading of "the last QueueUpdate call made for that
pair". -/
def lastQueued {alpha : Type} : List (BEvent alpha) → String → String → String → Option alpha
  | [], _, _, _ => none
  | e :: rest, g, u, d =>
    match lastQueued rest g u d with
    | some p => some p
    | none =>
      match e with
      | .queue g' p u' d' _ _ => if g' = g ∧ u' = u ∧ d' = d then some p else none
      | .tick _ _ => none

/-- The times at which a publish for group `g` was handed to the bus. -/
def gTimes {alpha : Type} (g : String) (log : List (String × alpha × Nat)) : List Nat :=
  (log.filter (fun e => decide (e.1 = g))).map (fun e => e.2.2)

/-! ## Ingestion route group resolution (src/routes/public/locations.ts, POST /locations) -/

/-- The externally observable side effects of the POST /locations handler
that matter here: persisting the record and queueing per target group. -/
inductive IngestEffect where
  | persist
  | queueUpdate (groupId : String) (frequencySeconds : Nat)
  deriving DecidableEq, Repr

/-- Request data relevant to group resolution: the optional `groupIds`
field of the body. -/
structure IngestRequest where
  explicitGroupIds : Option (List String)
  deriving DecidableEq, Repr

/-- Database answers the handler consumes: the submitting user's
non-pending membership group ids in membership-creation order, and the
active location shares (groupId, frequency seconds). -/
structure IngestContext where
  activeMemberships : List String
  activeShares : List (String × Nat)
  deriving DecidableEq, Repr

/-- Target-group resolution of the handler. With a non-empty `groupIds`
in the body: the user's non-pending memberships among them are valid, and
any requested id outside those is rejected with a 403. Otherwise: all
non-pending memberships, rejecting with a 403 when there are none. -/
def resolveTargetGroupIds (req : IngestRequest) (ctx : IngestContext) :
    Except String (List String) :=
  let fallback : Except String (List String) :=
    if ctx.activeMemberships.isEmpty then
      Except.error "User is not a member of any groups. Join a group before submitting location data."
    else Except.ok ctx.activeMemberships
  match req.explicitGroupIds with
  | some l =>
    if l.isEmpty then fallback
    else
      let valid := ctx.activeMemberships.filter (fun g => decide (g ∈ l))
      let invalid := l.filter (fun g => !(decide (g ∈ valid)))
      if invalid.isEmpty then Except.ok valid
      else Except.error "User is not an active member of the requested groups"
  | none => fallback

/-- The POST /locations handler after authentication and body validation:
resolve the target groups (throwing 403s as in `resolveTargetGroupIds`),
find the storage group (first non-pending membership, 403 when none),
persist the record, then queue one update per target group with the
group's active-share frequency, defaulting to 30 seconds. A thrown error
aborts the handler, so an error response comes with no recorded effects. -/
def postLocationHandler (req : IngestRequest) (ctx : IngestContext) :
    List IngestEffect × Option String :=
  match resolveTargetGroupIds req ctx with
  | Except.error e => ([], some e)
  | Except.ok targets =>
    match ctx.activeMemberships.head? with
    | none =>
      ([], some "User is not a member of any groups. Join a group before submitting location data.")
    | some _ =>
      (IngestEffect.persist ::
        targets.map (fun g => IngestEffect.queueUpdate g ((lookupA ctx.activeShares g).getD 30)),
       none)

/-- The set of groups the submitting user is authorized to target: the
explicit list intersected with the non-pending memberships when a
non-empty explicit list was sent, else all non-pending memberships. -/
def authorizedTargetGroups (req : IngestRequest) (ctx : IngestContext) : List String :=
  match req.explicitGroupIds with
  | some l =>
    if l.isEmpty then ctx.activeMemberships
    else ctx.activeMemberships.filter (fun g => decide (g ∈ l))
  | none => ctx.activeMemberships

/-! ## Association-list lemmas -/

theorem lookupA_setA_self {kappa beta : Type} [DecidableEq kappa]
    (l : List (kappa × beta)) (k : kappa) (v : beta) :
    lookupA (setA l k v) k = some v := by
  induction l with
  | nil => simp [setA, lookupA]
  | cons hd t ih =>
    obtain ⟨k', v'⟩ := hd
    by_cases hk : k' = k
    · simp [setA, hk, lookupA]
    · simp [setA, hk, lookupA, ih]

theorem lookupA_setA_ne {kappa beta : Type} [DecidableEq kappa]
    (l : List (kappa × beta)) {k k' : kappa} (v : beta) (h : k' ≠ k) :
    lookupA (setA l k' v) k = lookupA l k := by
  induction l with
  | nil => simp [setA, lookupA, h]
  | cons hd t ih =>
    obtain ⟨k'', v''⟩ := hd
    by_cases hk : k'' = k'
    · simp [setA, hk, lookupA, h]
    · simp only [setA, if_neg hk, lookupA]
      by_cases hk2 : k'' = k
      · simp [hk2]
      · simp [hk2, ih]

theorem lookupA_eraseA_self {kappa beta : Type} [DecidableEq kappa]
    (l : List (kappa × beta)) (k : kappa) :
    lookupA (eraseA l k) k = none := by
  induction l with
  | nil => simp [eraseA, lookupA]
  | cons hd t ih =>
    obtain ⟨k', v'⟩ := hd
    by_cases hk : k' = k
    · simp [eraseA, hk, ih]
    · simp [eraseA, hk, lookupA, ih]

theorem lookupA_eq_none_iff {kappa beta : Type} [DecidableEq kappa]
    (l : List (kappa × beta)) (k : kappa) :
    lookupA l k = none ↔ ∀ p ∈ l, p.1 ≠ k := by
  induction l with
  | nil => simp [lookupA]
  | cons hd t ih =>
    obtain ⟨k', v'⟩ := hd
    by_cases hk : k' = k
    · simp [lookupA, hk]
    · simp [lookupA, hk, ih]

theorem setA_eq_append {kappa beta : Type} [DecidableEq kappa]
    (l : List (kappa × beta)) (k : kappa) (v : beta) (h : ∀ p ∈ l, p.1 ≠ k) :
    setA l k v = l ++ [(k, v)] := by
  induction l with
  | nil => simp [setA]
  | cons hd t ih =>
    obtain ⟨k', v'⟩ := hd
    have hk : k' ≠ k := h (k', v') (by simp)
    simp only [setA, if_neg hk, List.cons_append, List.cons.injEq, true_and]
    exact ih (fun p hp => h p (by simp [hp]))

theorem mem_setA_elim {kappa beta : Type} [DecidableEq kappa]
    {l : List (kappa × beta)} {k : kappa} {v : beta} {p : kappa × beta}
    (h : p ∈ setA l k v) : p ∈ l ∨ p = (k, v) := by
  induction l with
  | nil => simp [setA] at h; simp [h]
  | cons hd t ih =>
    obtain ⟨k', v'⟩ := hd
    by_cases hk : k' = k
    · simp only [setA, if_pos hk, List.mem_cons] at h
      rcases h with h | h
      · right; exact h
      · left; simp [h]
    · simp only [setA, if_neg hk, List.mem_cons] at h
      rcases h with h | h
      · left; simp [h]
      · rcases ih h with h' | h'
        · left; simp [h']
        · right; exact h'

/-! ## Bus lemmas -/

/-- A sink that is not in the listener list is not invoked by `emit`. -/
theorem not_mem_emitRun {l : List Sink} {k : Sink} (h : k ∉ l) : k ∉ (emitRun l).1 := by
  induction l with
  | nil => simp [emitRun]
  | cons x xs ih =>
    have hx : k ≠ x := fun he => h (by simp [he])
    have hxs : k ∉ xs := fun he => h (by simp [he])
    by_cases hf : x.fails
    · simp [emitRun, hf, hx]
    · simp only [emitRun, hf, Bool.false_eq_true, if_false, List.mem_cons]
      rintro (h' | h')
      · exact hx h'
      · exact ih hxs h'

/-- Occurrence count of a sink in a listener list. -/
def countSink (l : List Sink) (k : Sink) : Nat :=
  (l.filter (fun x => decide (x = k))).length

theorem countSink_cons (x : Sink) (xs : List Sink) (k : Sink) :
    countSink (x :: xs) k = (if x = k then 1 else 0) + countSink xs k := by
  by_cases hx : x = k
  · simp only [countSink, List.filter_cons, hx, if_pos rfl]
    simp [Nat.add_comm]
  · simp [countSink, List.filter_cons, hx]

theorem countSink_pos_of_mem {l : List Sink} {k : Sink} (h : k ∈ l) : 1 ≤ countSink l k := by
  induction l with
  | nil => simp at h
  | cons x xs ih =>
    rw [countSink_cons]
    rcases List.mem_cons.mp h with h' | h'
    · simp [h'.symm]
    · have := ih h'
      omega

/-- With at most one occurrence, removing the last occurrence removes the sink. -/
theorem not_mem_removeLastSink {l : List Sink} {k : Sink} (h : countSink l k ≤ 1) :
    k ∉ removeLastSink l k := by
  induction l with
  | nil => simp [removeLastSink]
  | cons x xs ih =>
    rw [countSink_cons] at h
    by_cases hmem : k ∈ xs
    · have h1 := countSink_pos_of_mem hmem
      have hx : x ≠ k := by
        intro he
        rw [if_pos he] at h
        omega
      have hxs : countSink xs k ≤ 1 := by
        by_cases he : x = k <;> simp [he] at h <;> omega
      simp only [removeLastSink, if_pos hmem, List.mem_cons]
      rintro (h' | h')
      · exact hx h'.symm
      · exact ih hxs h'
    · by_cases hx : x = k
      · simp only [removeLastSink, if_neg hmem, if_pos hx]
        exact hmem
      · simp only [removeLastSink, if_neg hmem, if_neg hx, List.mem_cons]
        rintro (h' | h')
        · exact hx h'.symm
        · exact hmem h'

/-- Effect of `subscribe` on the group's subscriber set: the key is added
to the (possibly fresh) set. -/
theorem lookupA_as_subscribe (g a : String) (k : Sink) (t : Nat) (s : BusState) :
    lookupA (subscribe g a k t s).activeSubscribers g =
      some (addElem ((lookupA s.activeSubscribers g).getD []) a) := by
  cases h : lookupA s.activeSubscribers g with
  | none => simp [subscribe, h, lookupA_setA_self]
  | some subs => simp [subscribe, h, lookupA_setA_self]

/-- Effect of `subscribe` on the group's listener list: the listener is
appended. -/
theorem lookupA_ls_subscribe (g a : String) (k : Sink) (t : Nat) (s : BusState) :
    lookupA (subscribe g a k t s).listeners g =
      some (((lookupA s.listeners g).getD []) ++ [k]) := by
  cases h : lookupA s.activeSubscribers g with
  | none => simp [subscribe, h, lookupA_setA_self]
  | some subs => simp [subscribe, h, lookupA_setA_self]

/-- Effect of `unsubscribe` on the group's listener list. -/
theorem lookupA_listeners_unsubscribe (g a : String) (k : Sink) (s : BusState) :
    lookupA (unsubscribe g a k s).listeners g =
      (lookupA s.listeners g).map (fun l => removeLastSink l k) := by
  cases hls : lookupA s.listeners g with
  | none => simp [unsubscribe, hls]
  | some l => simp [unsubscribe, hls, lookupA_setA_self]

/-- Whatever `publishLocation` invokes comes from an `emit` over the
group's listener list (or nothing at all). -/
theorem publishLocation_invoked_cases {alpha : Type} (g : String) (p : alpha) (s : BusState) :
    (publishLocation g p s).invoked = [] ∨
    (publishLocation g p s).invoked = (emitRun ((lookupA s.listeners g).getD [])).1 := by
  cases hsub : lookupA s.activeSubscribers g with
  | none => simp [publishLocation, hsub]
  | some subs =>
    by_cases hse : subs.isEmpty
    · simp [publishLocation, hsub, hse]
    · simp [publishLocation, hsub, hse]

/-- Emitting to a listener list whose first failing listener is `f` invokes
exactly the listeners up to and including `f` and propagates the throw. -/
theorem emitRun_break {l1 l2 : List Sink} {f : Sink}
    (h1 : ∀ x ∈ l1, x.fails = false) (hf : f.fails = true) :
    emitRun (l1 ++ f :: l2) = (l1 ++ [f], true) := by
  induction l1 with
  | nil => simp [emitRun, hf]
  | cons x xs ih =>
    have hx : x.fails = false := h1 x (by simp)
    simp [emitRun, hx, ih (fun y hy => h1 y (by simp [hy]))]

/-! ## Claim theorems about the event bus -/

/-- C7: for a group with zero registered subscribers, `publishLocation`
invokes no sink, constructs no enriched event and leaves the bus state
unchanged, and `publishLocationToGroups` restricted to that group does the
same (the group is filtered out before any work). -/
theorem publish_no_subscriber_noop {alpha : Type} (g : String) (p : alpha) (s : BusState)
    (h : getSubscriberCount g s = 0) :
    publishLocation g p s = ⟨s, none, [], false⟩ ∧
    publishLocationToGroups [g] p s = (s, [], false) := by
  cases hsub : lookupA s.activeSubscribers g with
  | none =>
    constructor
    · simp [publishLocation, hsub]
    · simp [publishLocationToGroups, hsub, publishToGroupsGo]
  | some subs =>
    have hsube : subs = [] := by
      simpa [getSubscriberCount, hsub] using h
    subst hsube
    constructor
    · simp [publishLocation, hsub]
    · simp [publishLocationToGroups, hsub, publishToGroupsGo]

/-- Witness for C7 at the empty bus. -/
theorem publish_no_subscriber_noop_witness :
    publishLocation "grp" (0 : Nat) initBus = ⟨initBus, none, [], false⟩ ∧
    publishLocationToGroups ["grp"] (0 : Nat) initBus = (initBus, [], false) :=
  publish_no_subscriber_noop "grp" (0 : Nat) initBus (by decide)

/-- C8: once the cancel function returned by `subscribe` has run (it calls
`unsubscribe` with the subscription's group, key and listener), a
subsequent `publishLocation` to that group does not invoke the cancelled
sink — provided the sink was registered by this subscription alone (each
stream connection registers its own fresh closure, so a live sink occurs
at most once in the group's listener list). -/
theorem unsubscribe_stops_delivery {alpha : Type} (g a : String) (k : Sink) (p : alpha)
    (s : BusState) (h : countSink ((lookupA s.listeners g).getD []) k ≤ 1) :
    k ∉ (publishLocation g p (unsubscribe g a k s)).invoked := by
  have hls := lookupA_listeners_unsubscribe g a k s
  have hk : k ∉ ((lookupA (unsubscribe g a k s).listeners g).getD []) := by
    rw [hls]
    cases hv : lookupA s.listeners g with
    | none => simp
    | some l =>
      rw [hv] at h
      simpa using not_mem_removeLastSink (by simpa using h)
  rcases publishLocation_invoked_cases g p (unsubscribe g a k s) with hc | hc
  · simp [hc]
  · rw [hc]
    exact not_mem_emitRun hk

/-- Witness for C8: subscribe one sink on the empty bus, cancel it, publish. -/
theorem unsubscribe_stops_delivery_witness :
    Sink.mk 1 false ∉ (publishLocation "grp" (0 : Nat)
      (unsubscribe "grp" "sub" (Sink.mk 1 false)
        (subscribe "grp" "sub" (Sink.mk 1 false) 5 initBus))).invoked :=
  unsubscribe_stops_delivery "grp" "sub" (Sink.mk 1 false) (0 : Nat)
    (subscribe "grp" "sub" (Sink.mk 1 false) 5 initBus) (by decide)

/-- C10: subscriber tracking is keyed by subscriber identity, not by sink.
With two live subscriptions of the same identity on an otherwise fresh
group, cancelling either one empties the identity set, so the subscriber
count drops to zero, `hasSubscribers` is false, and a subsequent publish
invokes no sink at all — including the sink whose subscription was never
cancelled. -/
theorem subscriber_count_identity_keyed {alpha : Type} (g a : String) (k1 k2 : Sink)
    (t1 t2 : Nat) (p : alpha) (s : BusState)
    (hsub : lookupA s.activeSubscribers g = none)
    (_hls : lookupA s.listeners g = none) :
    (getSubscriberCount g
        (unsubscribe g a k1 (subscribe g a k2 t2 (subscribe g a k1 t1 s))) = 0 ∧
     hasSubscribers g
        (unsubscribe g a k1 (subscribe g a k2 t2 (subscribe g a k1 t1 s))) = false ∧
     (publishLocation g p
        (unsubscribe g a k1 (subscribe g a k2 t2 (subscribe g a k1 t1 s)))).invoked = []) ∧
    (getSubscriberCount g
        (unsubscribe g a k2 (subscribe g a k2 t2 (subscribe g a k1 t1 s))) = 0 ∧
     hasSubscribers g
        (unsubscribe g a k2 (subscribe g a k2 t2 (subscribe g a k1 t1 s))) = false ∧
     (publishLocation g p
        (unsubscribe g a k2 (subscribe g a k2 t2 (subscribe g a k1 t1 s)))).invoked = []) := by
  have h1 : lookupA (subscribe g a k1 t1 s).activeSubscribers g = some [a] := by
    rw [lookupA_as_subscribe]
    simp [hsub, addElem]
  have h2 : lookupA (subscribe g a k2 t2 (subscribe g a k1 t1 s)).activeSubscribers g
      = some [a] := by
    rw [lookupA_as_subscribe]
    simp [h1, addElem]
  have hu1 : lookupA
      (unsubscribe g a k1 (subscribe g a k2 t2 (subscribe g a k1 t1 s))).activeSubscribers g
      = none := by
    simp [unsubscribe, h2, lookupA_eraseA_self]
  have hu2 : lookupA
      (unsubscribe g a k2 (subscribe g a k2 t2 (subscribe g a k1 t1 s))).activeSubscribers g
      = none := by
    simp [unsubscribe, h2, lookupA_eraseA_self]
  refine ⟨⟨?_, ?_, ?_⟩, ⟨?_, ?_, ?_⟩⟩
  · simp [getSubscriberCount, hu1]
  · simp [hasSubscribers, getSubscriberCount, hu1]
  · simp [publishLocation, hu1]
  · simp [getSubscriberCount, hu2]
  · simp [hasSubscribers, getSubscriberCount, hu2]
  · simp [publishLocation, hu2]

/-- Witness for C10 on the empty bus with two distinct sinks. -/
theorem subscriber_count_identity_keyed_witness :
    (getSubscriberCount "grp"
        (unsubscribe "grp" "sub" (Sink.mk 1 false)
          (subscribe "grp" "sub" (Sink.mk 2 false) 2
            (subscribe "grp" "sub" (Sink.mk 1 false) 1 initBus))) = 0 ∧
     hasSubscribers "grp"
        (unsubscribe "grp" "sub" (Sink.mk 1 false)
          (subscribe "grp" "sub" (Sink.mk 2 false) 2
            (subscribe "grp" "sub" (Sink.mk 1 false) 1 initBus))) = false ∧
     (publishLocation "grp" (0 : Nat)
        (unsubscribe "grp" "sub" (Sink.mk 1 false)
          (subscribe "grp" "sub" (Sink.mk 2 false) 2
            (subscribe "grp" "sub" (Sink.mk 1 false) 1 initBus)))).invoked = []) ∧
    (getSubscriberCount "grp"
        (unsubscribe "grp" "sub" (Sink.mk 2 false)
          (subscribe "grp" "sub" (Sink.mk 2 false) 2
            (subscribe "grp" "sub" (Sink.mk 1 false) 1 initBus))) = 0 ∧
     hasSubscribers "grp"
        (unsubscribe "grp" "sub" (Sink.mk 2 false)
          (subscribe "grp" "sub" (Sink.mk 2 false) 2
            (subscribe "grp" "sub" (Sink.mk 1 false) 1 initBus))) = false ∧
     (publishLocation "grp" (0 : Nat)
        (unsubscribe "grp" "sub" (Sink.mk 2 false)
          (subscribe "grp" "sub" (Sink.mk 2 false) 2
            (subscribe "grp" "sub" (Sink.mk 1 false) 1 initBus)))).invoked = []) :=
  subscriber_count_identity_keyed "grp" "sub" (Sink.mk 1 false) (Sink.mk 2 false) 1 2
    (0 : Nat) initBus (by decide) (by decide)

/-- C1 counterexample: on a fresh group, subscribe the same subscriber
identity twice with two different sinks, then publish. The first sink is
still invoked (both listeners remain registered), refuting "sink1 receives
no events from any Publish that begins after the second Subscribe returns". -/
theorem resubscribe_supersedes_counterexample :
    Sink.mk 1 false ∈ (publishLocation "grp" (0 : Nat)
      (subscribe "grp" "sub" (Sink.mk 2 false) 2
        (subscribe "grp" "sub" (Sink.mk 1 false) 1 initBus))).invoked := by
  decide

/-- C1 amended: re-subscribing the same subscriber identity to the same
group does NOT replace the old subscription. The `EventEmitter` keeps both
listeners, so a publish after the second subscribe invokes the first sink
and then the second (two active delivery paths), while the identity-keyed
subscriber set still reports a count of one. -/
theorem resubscribe_does_not_replace {alpha : Type} (g a : String) (k1 k2 : Sink)
    (t1 t2 : Nat) (p : alpha) (s : BusState)
    (hsub : lookupA s.activeSubscribers g = none)
    (hls : lookupA s.listeners g = none)
    (hk1 : k1.fails = false) :
    getSubscriberCount g (subscribe g a k2 t2 (subscribe g a k1 t1 s)) = 1 ∧
    (publishLocation g p (subscribe g a k2 t2 (subscribe g a k1 t1 s))).invoked
      = [k1, k2] := by
  have h1 : lookupA (subscribe g a k1 t1 s).activeSubscribers g = some [a] := by
    rw [lookupA_as_subscribe]
    simp [hsub, addElem]
  have h1ls : lookupA (subscribe g a k1 t1 s).listeners g = some [k1] := by
    rw [lookupA_ls_subscribe]
    simp [hls]
  have h2 : lookupA (subscribe g a k2 t2 (subscribe g a k1 t1 s)).activeSubscribers g
      = some [a] := by
    rw [lookupA_as_subscribe]
    simp [h1, addElem]
  have h2ls : lookupA (subscribe g a k2 t2 (subscribe g a k1 t1 s)).listeners g
      = some [k1, k2] := by
    rw [lookupA_ls_subscribe]
    simp [h1ls]
  refine ⟨by simp [getSubscriberCount, h2], ?_⟩
  cases hf : k2.fails
  · simp [publishLocation, h2, h2ls, emitRun, hk1, hf]
  · simp [publishLocation, h2, h2ls, emitRun, hk1, hf]

/-- Witness for the amended C1 on the empty bus. -/
theorem resubscribe_does_not_replace_witness :
    getSubscriberCount "grp"
      (subscribe "grp" "sub" (Sink.mk 2 false) 2
        (subscribe "grp" "sub" (Sink.mk 1 false) 1 initBus)) = 1 ∧
    (publishLocation "grp" (0 : Nat)
      (subscribe "grp" "sub" (Sink.mk 2 false) 2
        (subscribe "grp" "sub" (Sink.mk 1 false) 1 initBus))).invoked
      = [Sink.mk 1 false, Sink.mk 2 false] :=
  resubscribe_does_not_replace "grp" "sub" (Sink.mk 1 false) (Sink.mk 2 false) 1 2
    (0 : Nat) initBus (by decide) (by decide) (by decide)

/-- C2 counterexample: two subscribers on a fresh group, the first sink
throws when invoked. Publishing propagates the exception to the caller
(`threw = true`) and the second sink never receives the event, refuting
"every other sink still receives the event and the exception does not
propagate to the publishing caller". -/
theorem sink_isolation_counterexample :
    (publishLocation "grp" (0 : Nat)
      (subscribe "grp" "a2" (Sink.mk 2 false) 2
        (subscribe "grp" "a1" (Sink.mk 1 true) 1 initBus))).threw = true ∧
    Sink.mk 2 false ∉ (publishLocation "grp" (0 : Nat)
      (subscribe "grp" "a2" (Sink.mk 2 false) 2
        (subscribe "grp" "a1" (Sink.mk 1 true) 1 initBus))).invoked := by
  decide

/-- C2 amended: sink failures are NOT isolated. When the group's listener
list is `l1 ++ f :: l2` with every sink of `l1` succeeding and `f`
throwing, a publish to a group with subscribers invokes exactly
`l1 ++ [f]`: the sinks registered before `f` receive the event, the sinks
after `f` receive nothing, and the exception propagates to the publishing
caller. -/
theorem sink_failure_aborts_emit {alpha : Type} (g : String) (p : alpha) (s : BusState)
    (subs : List String) (l1 l2 : List Sink) (f : Sink)
    (hsub : lookupA s.activeSubscribers g = some subs) (hne : subs ≠ [])
    (hls : lookupA s.listeners g = some (l1 ++ f :: l2))
    (h1 : ∀ x ∈ l1, x.fails = false) (hf : f.fails = true) :
    (publishLocation g p s).invoked = l1 ++ [f] ∧
    (publishLocation g p s).threw = true := by
  have hse : subs.isEmpty = false := by
    cases subs with
    | nil => exact absurd rfl hne
    | cons x xs => simp
  constructor <;> simp [publishLocation, hsub, hse, hls, emitRun_break h1 hf]

/-- Witness for the amended C2. -/
theorem sink_failure_aborts_emit_witness :
    (publishLocation "grp" (0 : Nat)
      (subscribe "grp" "a2" (Sink.mk 2 false) 2
        (subscribe "grp" "a1" (Sink.mk 1 true) 1 initBus))).invoked = [Sink.mk 1 true] ∧
    (publishLocation "grp" (0 : Nat)
      (subscribe "grp" "a2" (Sink.mk 2 false) 2
        (subscribe "grp" "a1" (Sink.mk 1 true) 1 initBus))).threw = true := by
  have h := sink_failure_aborts_emit "grp" (0 : Nat)
    (subscribe "grp" "a2" (Sink.mk 2 false) 2
      (subscribe "grp" "a1" (Sink.mk 1 true) 1 initBus))
    ["a1", "a2"] [] [Sink.mk 2 false] (Sink.mk 1 true)
    (by decide) (by decide) (by decide) (by decide) (by decide)
  simpa using h

/-! ## Batcher lemmas -/

theorem publishQueuedUpdates_of_flush {alpha : Type} {s : BatcherState alpha} {g : String}
    {q : List (QueuedLocationUpdate alpha)} (now : Nat)
    (hq : lookupA s.groupQueues g = some q) (hne : q ≠ []) :
    publishQueuedUpdates g now s =
      ({ s with
          groupQueues := setA s.groupQueues g []
          lastPublished := setA s.lastPublished g now },
       (collectLatest q []).map (fun kv => (g, kv.2.payload))) := by
  have he : q.isEmpty = false := by
    cases q with
    | nil => exact absurd rfl hne
    | cons a l => simp
  simp [publishQueuedUpdates, hq, he]

theorem publishQueuedUpdates_of_noflush {alpha : Type} {s : BatcherState alpha} {g : String}
    (now : Nat)
    (h : lookupA s.groupQueues g = none ∨
         lookupA s.groupQueues g = some ([] : List (QueuedLocationUpdate alpha))) :
    publishQueuedUpdates g now s = (s, []) := by
  rcases h with h | h
  · simp [publishQueuedUpdates, h]
  · simp [publishQueuedUpdates, h]

theorem publishQueuedUpdates_fields {alpha : Type} (g : String) (now : Nat)
    (s : BatcherState alpha) :
    (publishQueuedUpdates g now s).1.groupFrequencies = s.groupFrequencies ∧
    (publishQueuedUpdates g now s).1.intervalTimers = s.intervalTimers ∧
    (publishQueuedUpdates g now s).1.frequencies = s.frequencies := by
  cases hq : lookupA s.groupQueues g with
  | none => simp [publishQueuedUpdates, hq]
  | some q =>
    by_cases he : q.isEmpty
    · simp [publishQueuedUpdates, hq, he]
    · simp [publishQueuedUpdates, hq, he]

theorem publishQueuedUpdates_lookup_ne {alpha : Type} {g g' : String} (h : g' ≠ g)
    (now : Nat) (s : BatcherState alpha) :
    lookupA (publishQueuedUpdates g now s).1.groupQueues g' = lookupA s.groupQueues g' ∧
    lookupA (publishQueuedUpdates g now s).1.lastPublished g' = lookupA s.lastPublished g' := by
  cases hq : lookupA s.groupQueues g with
  | none => simp [publishQueuedUpdates, hq]
  | some q =>
    by_cases he : q.isEmpty
    · simp [publishQueuedUpdates, hq, he]
    · constructor <;>
        simp [publishQueuedUpdates, hq, he, lookupA_setA_ne _ _ (Ne.symm h)]

theorem publishQueuedUpdates_queue_self {alpha : Type} (g : String) (now : Nat)
    (s : BatcherState alpha) :
    lookupA (publishQueuedUpdates g now s).1.groupQueues g = lookupA s.groupQueues g ∨
    lookupA (publishQueuedUpdates g now s).1.groupQueues g = some [] := by
  cases hq : lookupA s.groupQueues g with
  | none => left; simp [publishQueuedUpdates, hq]
  | some q =>
    by_cases he : q.isEmpty
    · left; simp [publishQueuedUpdates, hq, he]
    · right; simp [publishQueuedUpdates, hq, he, lookupA_setA_self]

theorem publishQueuedUpdates_out_fst {alpha : Type} (g : String) (now : Nat)
    (s : BatcherState alpha) :
    ∀ pr ∈ (publishQueuedUpdates g now s).2, pr.1 = g := by
  intro pr hpr
  cases hq : lookupA s.groupQueues g with
  | none => simp [publishQueuedUpdates, hq] at hpr
  | some q =>
    by_cases he : q.isEmpty
    · simp [publishQueuedUpdates, hq, he] at hpr
    · simp only [publishQueuedUpdates, hq, he, Bool.false_eq_true, if_false,
        List.mem_map] at hpr
      obtain ⟨kv, _, hkv⟩ := hpr
      simp [← hkv]

theorem processEntries_fields {alpha : Type} (fm now : Nat) (es : List (String × Nat)) :
    ∀ s : BatcherState alpha,
      (processEntries fm now es s).1.groupFrequencies = s.groupFrequencies ∧
      (processEntries fm now es s).1.intervalTimers = s.intervalTimers ∧
      (processEntries fm now es s).1.frequencies = s.frequencies := by
  induction es with
  | nil => intro s; simp [processEntries]
  | cons hd rest ih =>
    intro s
    obtain ⟨g, f⟩ := hd
    by_cases hf : f = fm
    · by_cases hd' : dueB fm now s g = true
      · have hp := publishQueuedUpdates_fields g now s
        have hr := ih (publishQueuedUpdates g now s).1
        simp only [processEntries, if_pos hf, hd', if_true]
        exact ⟨hr.1.trans hp.1, hr.2.1.trans hp.2.1, hr.2.2.trans hp.2.2⟩
      · simp only [processEntries, if_pos hf, hd', if_false]
        exact ih s
    · simp only [processEntries, if_neg hf]
      exact ih s

theorem processEntries_lookup_of_not_key {alpha : Type} (fm now : Nat)
    (es : List (String × Nat)) :
    ∀ (s : BatcherState alpha) (g : String), (∀ pr ∈ es, pr.1 ≠ g) →
      lookupA (processEntries fm now es s).1.groupQueues g = lookupA s.groupQueues g ∧
      lookupA (processEntries fm now es s).1.lastPublished g = lookupA s.lastPublished g := by
  induction es with
  | nil => intro s g _; simp [processEntries]
  | cons hd rest ih =>
    intro s g hkeys
    obtain ⟨g0, f⟩ := hd
    have hg0 : g0 ≠ g := hkeys (g0, f) (by simp)
    have hrest : ∀ pr ∈ rest, pr.1 ≠ g := fun pr hpr => hkeys pr (by simp [hpr])
    by_cases hf : f = fm
    · by_cases hd' : dueB fm now s g0 = true
      · have hp := publishQueuedUpdates_lookup_ne (Ne.symm hg0) now s
        have hr := ih (publishQueuedUpdates g0 now s).1 g hrest
        simp only [processEntries, if_pos hf, hd', if_true]
        exact ⟨hr.1.trans hp.1, hr.2.trans hp.2⟩
      · simp only [processEntries, if_pos hf, hd', if_false]
        exact ih s g hrest
    · simp only [processEntries, if_neg hf]
      exact ih s g hrest

theorem processEntries_queue_cases {alpha : Type} (fm now : Nat) (es : List (String × Nat)) :
    ∀ (s : BatcherState alpha) (g : String),
      lookupA (processEntries fm now es s).1.groupQueues g = lookupA s.groupQueues g ∨
      lookupA (processEntries fm now es s).1.groupQueues g = some [] := by
  induction es with
  | nil => intro s g; left; simp [processEntries]
  | cons hd rest ih =>
    intro s g
    obtain ⟨g0, f⟩ := hd
    by_cases hf : f = fm
    · by_cases hd' : dueB fm now s g0 = true
      · simp only [processEntries, if_pos hf, hd', if_true]
        have h1 := publishQueuedUpdates_queue_self g0 now s
        have h2 := ih (publishQueuedUpdates g0 now s).1 g
        by_cases hg : g0 = g
        · subst hg
          rcases h2 with h2 | h2
          · rcases h1 with h1 | h1
            · left; exact h2.trans h1
            · right; exact h2.trans h1
          · right; exact h2
        · have hp := (publishQueuedUpdates_lookup_ne (Ne.symm hg) now s).1
          rcases h2 with h2 | h2
          · left; exact h2.trans hp
          · right; exact h2
      · simp only [processEntries, if_pos hf, hd', if_false]
        exact ih s g
    · simp only [processEntries, if_neg hf]
      exact ih s g

/-- If every entry before the final `(g, fm)` entry concerns another group,
and `g` is due with a non-empty queue, then every publish produced by
flushing `g`'s queue appears in the output of the whole pass. -/
theorem processEntries_flush_last {alpha : Type} (fm now : Nat) (es : List (String × Nat)) :
    ∀ (s : BatcherState alpha) (g : String) (q : List (QueuedLocationUpdate alpha)),
      (∀ pr ∈ es, pr.1 ≠ g) →
      lookupA s.groupQueues g = some q → q ≠ [] →
      dueB fm now s g = true →
      ∀ x ∈ (collectLatest q []).map (fun kv => (g, kv.2.payload)),
        x ∈ (processEntries fm now (es ++ [(g, fm)]) s).2 := by
  induction es with
  | nil =>
    intro s g q _ hq hne hdue x hx
    rw [List.nil_append]
    simp only [processEntries, if_pos rfl, hdue, if_true,
      publishQueuedUpdates_of_flush now hq hne]
    simpa using hx
  | cons hd rest ih =>
    intro s g q hkeys hq hne hdue x hx
    obtain ⟨g0, f⟩ := hd
    have hg0 : g0 ≠ g := hkeys (g0, f) (by simp)
    have hrest : ∀ pr ∈ rest, pr.1 ≠ g := fun pr hpr => hkeys pr (by simp [hpr])
    rw [List.cons_append]
    by_cases hf : f = fm
    · by_cases hd' : dueB fm now s g0 = true
      · simp only [processEntries, if_pos hf, hd', if_true]
        have hp := publishQueuedUpdates_lookup_ne (Ne.symm hg0) now s
        have hdue' : dueB fm now (publishQueuedUpdates g0 now s).1 g = true := by
          unfold dueB at hdue ⊢
          rw [hp.2]
          exact hdue
        have := ih (publishQueuedUpdates g0 now s).1 g q hrest (hp.1.trans hq) hne hdue' x hx
        simp only [List.mem_append]
        right
        exact this
      · simp only [processEntries, if_pos hf, hd', if_false]
        exact ih s g q hrest hq hne hdue x hx
    · simp only [processEntries, if_neg hf]
      exact ih s g q hrest hq hne hdue x hx

theorem gTimes_append {alpha : Type} (g : String) (l1 l2 : List (String × alpha × Nat)) :
    gTimes g (l1 ++ l2) = gTimes g l1 ++ gTimes g l2 := by
  simp [gTimes]

theorem mem_gTimes_tagT {alpha : Type} {g : String} {out : List (String × alpha)}
    {t x : Nat} (h : x ∈ gTimes g (tagT out t)) : x = t := by
  simp only [gTimes, tagT, List.mem_map, List.mem_filter] at h
  obtain ⟨e, ⟨heo, _⟩, hx⟩ := h
  obtain ⟨gp, _, rfl⟩ := heo
  exact hx.symm

theorem gTimes_tagT_eq_nil {alpha : Type} {g : String} {out : List (String × alpha)}
    {t : Nat} (h : ∀ pr ∈ out, pr.1 ≠ g) : gTimes g (tagT out t) = [] := by
  simp only [gTimes, tagT, List.map_map, List.map_eq_nil_iff, List.filter_eq_nil_iff]
  intro pr hpr
  simp only [List.mem_map] at hpr
  obtain ⟨gp, hgp, hpr'⟩ := hpr
  subst hpr'
  simpa using h gp hgp

theorem enqueueCore_queue_self {alpha : Type} (g : String) (p : alpha) (u d : String)
    (fm now : Nat) (s : BatcherState alpha) :
    lookupA (enqueueCore g p u d fm now s).groupQueues g =
      some ((((lookupA s.groupQueues g).getD []).filter
        (fun e => !(decide (e.userId = u ∧ e.deviceId = d)))) ++ [⟨p, u, d, now⟩]) := by
  cases hq : lookupA s.groupQueues g with
  | none => simp [enqueueCore, hq, lookupA_setA_self]
  | some q => simp [enqueueCore, hq, lookupA_setA_self]

theorem enqueueCore_queue_ne {alpha : Type} {g g' : String} (h : g' ≠ g) (p : alpha)
    (u d : String) (fm now : Nat) (s : BatcherState alpha) :
    lookupA (enqueueCore g p u d fm now s).groupQueues g' = lookupA s.groupQueues g' := by
  cases hq : lookupA s.groupQueues g with
  | none => simp [enqueueCore, hq, lookupA_setA_ne _ _ (Ne.symm h)]
  | some q => simp [enqueueCore, hq, lookupA_setA_ne _ _ (Ne.symm h)]

theorem enqueueCore_lastPublished_fresh {alpha : Type} {g : String} (p : alpha) (u d : String)
    (fm now : Nat) {s : BatcherState alpha} (hq : lookupA s.groupQueues g = none) :
    lookupA (enqueueCore g p u d fm now s).lastPublished g = some 0 := by
  simp [enqueueCore, hq, lookupA_setA_self]

theorem enqueueCore_lastPublished_keep {alpha : Type} {g : String} (p : alpha) (u d : String)
    (fm now : Nat) {s : BatcherState alpha} (hq : (lookupA s.groupQueues g).isSome = true) :
    lookupA (enqueueCore g p u d fm now s).lastPublished g = lookupA s.lastPublished g := by
  simp [enqueueCore, hq]

theorem enqueueCore_lastPublished_ne {alpha : Type} {g g' : String} (h : g' ≠ g) (p : alpha)
    (u d : String) (fm now : Nat) (s : BatcherState alpha) :
    lookupA (enqueueCore g p u d fm now s).lastPublished g' = lookupA s.lastPublished g' := by
  cases hq : lookupA s.groupQueues g with
  | none => simp [enqueueCore, hq, lookupA_setA_ne _ _ (Ne.symm h)]
  | some q => simp [enqueueCore, hq]

theorem enqueueCore_gF_eq {alpha : Type} (g : String) (p : alpha) (u d : String)
    (fm now : Nat) (s : BatcherState alpha) :
    (enqueueCore g p u d fm now s).groupFrequencies = setA s.groupFrequencies g fm := by
  cases hq : lookupA s.groupQueues g with
  | none => simp [enqueueCore, hq]
  | some q => simp [enqueueCore, hq]

theorem enqueueCore_timers {alpha : Type} (g : String) (p : alpha) (u d : String)
    (fm now : Nat) (s : BatcherState alpha) :
    (enqueueCore g p u d fm now s).intervalTimers = s.intervalTimers := by
  cases hq : lookupA s.groupQueues g with
  | none => simp [enqueueCore, hq]
  | some q => simp [enqueueCore, hq]

theorem collectLatest_singleton {alpha : Type} (e : QueuedLocationUpdate alpha) :
    collectLatest [e] [] = [(qKey e, e)] := by
  simp [collectLatest, lookupA]

/-- On a brand-new group, enqueueing and then processing its frequency at a
time at least `fm` past the epoch publishes the queued payload — with no
constraint whatsoever between the enqueue time and the processing time. -/
theorem fresh_enqueue_then_process {alpha : Type} (g : String) (p : alpha) (u d : String)
    (fm tq tp : Nat) (s : BatcherState alpha)
    (hq : lookupA s.groupQueues g = none)
    (hf : lookupA s.groupFrequencies g = none)
    (hclock : fm ≤ tp) :
    (g, p) ∈ (processQueuesAtFrequency fm tp (enqueueCore g p u d fm tq s)).2 := by
  have hkeys : ∀ pr ∈ s.groupFrequencies, pr.1 ≠ g := (lookupA_eq_none_iff _ _).mp hf
  have hgf : (enqueueCore g p u d fm tq s).groupFrequencies =
      s.groupFrequencies ++ [(g, fm)] := by
    rw [enqueueCore_gF_eq, setA_eq_append _ _ _ hkeys]
  have hq3 : lookupA (enqueueCore g p u d fm tq s).groupQueues g
      = some [⟨p, u, d, tq⟩] := by
    rw [enqueueCore_queue_self]
    simp [hq]
  have hlp3 : lookupA (enqueueCore g p u d fm tq s).lastPublished g = some 0 :=
    enqueueCore_lastPublished_fresh p u d fm tq hq
  have hdue : dueB fm tp (enqueueCore g p u d fm tq s) g = true := by
    simp only [dueB, hlp3, Nat.sub_zero, decide_eq_true_eq]
    exact hclock
  have hmem : (g, p) ∈ (collectLatest [(⟨p, u, d, tq⟩ : QueuedLocationUpdate alpha)] []).map
      (fun kv => (g, kv.2.payload)) := by
    simp [collectLatest_singleton]
  have := processEntries_flush_last fm tp s.groupFrequencies
    (enqueueCore g p u d fm tq s) g [⟨p, u, d, tq⟩] hkeys hq3 (by simp) hdue (g, p) hmem
  rw [processQueuesAtFrequency, hgf]
  exact this

/-- C6: a `queueLocationUpdate` with a brand-new frequency (no interval
timer for it yet) runs one immediate flush pass — so, for a fresh group at
any time at least the frequency past the epoch, the first update is
published at once and the timer is recorded; a call whose frequency
already has a timer publishes nothing immediately. -/
theorem new_frequency_immediate_flush {alpha : Type} (g : String) (p : alpha) (u d : String)
    (Fs now : Nat) (s : BatcherState alpha)
    (hq : lookupA s.groupQueues g = none)
    (hf : lookupA s.groupFrequencies g = none) :
    ((Fs * 1000) ∉ s.intervalTimers → Fs * 1000 ≤ now →
      (g, p) ∈ (queueLocationUpdate g p u d Fs now s).2 ∧
      (Fs * 1000) ∈ (queueLocationUpdate g p u d Fs now s).1.intervalTimers) ∧
    ((Fs * 1000) ∈ s.intervalTimers →
      (queueLocationUpdate g p u d Fs now s).2 = []) := by
  constructor
  · intro htimer hclock
    have hcontains : (enqueueCore g p u d (Fs * 1000) now s).intervalTimers.contains
        (Fs * 1000) = false := by
      rw [enqueueCore_timers]
      simpa using htimer
    constructor
    · simp only [queueLocationUpdate, hcontains, Bool.false_eq_true, if_false]
      exact fresh_enqueue_then_process g p u d (Fs * 1000) now now s hq hf hclock
    · simp only [queueLocationUpdate, hcontains, Bool.false_eq_true, if_false]
      simp
  · intro htimer
    have hmem : Fs * 1000 ∈ (enqueueCore g p u d (Fs * 1000) now s).intervalTimers := by
      rw [enqueueCore_timers]
      exact htimer
    simp [queueLocationUpdate, hmem]

/-- Witness for C6 on the empty batcher at a realistic wall-clock time,
plus the no-immediate-pass half on a batcher whose 30s timer exists. -/
theorem new_frequency_immediate_flush_witness :
    (("grp", 7) ∈ (queueLocationUpdate "grp" (7 : Nat) "u" "d" 30 1760000000000
        initBatcher).2 ∧
      (30 * 1000) ∈ (queueLocationUpdate "grp" (7 : Nat) "u" "d" 30 1760000000000
        initBatcher).1.intervalTimers) ∧
    (queueLocationUpdate "grp" (7 : Nat) "u" "d" 30 1760000000000
        (⟨[], [], [], [30000], [30000]⟩ : BatcherState Nat)).2 = [] := by
  constructor
  · exact (new_frequency_immediate_flush "grp" (7 : Nat) "u" "d" 30 1760000000000
      initBatcher (by decide) (by decide)).1 (by decide) (by decide)
  · exact (new_frequency_immediate_flush "grp" (7 : Nat) "u" "d" 30 1760000000000
      (⟨[], [], [], [30000], [30000]⟩ : BatcherState Nat) (by decide) (by decide)).2
      (by decide)

/-! ## Rate-limit invariant for C4 -/

/-- Core invariant tying the publish log for group `g` to the batcher
state: any two distinct flush times are at least `F` apart, every logged
time is bounded by the current last-published stamp, and a group that has
ever flushed still has a queue entry. -/
def RateCore {alpha : Type} (g : String) (F : Nat) (s : BatcherState alpha)
    (log : List (String × alpha × Nat)) : Prop :=
  (∀ t1 ∈ gTimes g log, ∀ t2 ∈ gTimes g log, t1 < t2 → t1 + F ≤ t2) ∧
  (∀ t ∈ gTimes g log, ∃ lp, lookupA s.lastPublished g = some lp ∧ t ≤ lp) ∧
  (gTimes g log ≠ [] → (lookupA s.groupQueues g).isSome = true)

/-- Flushing another group preserves the invariant for `g`. -/
theorem rateCore_pub_ne {alpha : Type} {g g0 : String} (hne : g0 ≠ g) {F now : Nat}
    {s : BatcherState alpha} {log} (hc : RateCore g F s log) :
    RateCore g F (publishQueuedUpdates g0 now s).1
      (log ++ tagT (publishQueuedUpdates g0 now s).2 now) := by
  have hfst := publishQueuedUpdates_out_fst g0 now s
  have hnil : gTimes g (tagT (publishQueuedUpdates g0 now s).2 now) = [] :=
    gTimes_tagT_eq_nil (fun pr hpr => by rw [hfst pr hpr]; exact hne)
  have hlk := publishQueuedUpdates_lookup_ne (Ne.symm hne) now s
  obtain ⟨hsep, hlp, hqs⟩ := hc
  refine ⟨?_, ?_, ?_⟩
  · intro t1 ht1 t2 ht2 hlt
    rw [gTimes_append, hnil, List.append_nil] at ht1 ht2
    exact hsep t1 ht1 t2 ht2 hlt
  · intro t ht
    rw [gTimes_append, hnil, List.append_nil] at ht
    rw [hlk.2]
    exact hlp t ht
  · intro hne'
    rw [gTimes_append, hnil, List.append_nil] at hne'
    rw [hlk.1]
    exact hqs hne'

/-- Flushing `g` itself when it is due preserves the invariant: the gate
`F ≤ now - lastPublished` forces the new flush time past every logged one
by at least `F`, and the stamp moves to `now`. -/
theorem rateCore_pub_self {alpha : Type} {g : String} {F now : Nat} (hF : 1 ≤ F)
    {s : BatcherState alpha} {log} (hc : RateCore g F s log)
    (hdue : dueB F now s g = true) :
    RateCore g F (publishQueuedUpdates g now s).1
      (log ++ tagT (publishQueuedUpdates g now s).2 now) := by
  obtain ⟨hsep, hlp, hqs⟩ := hc
  cases hqv : lookupA s.groupQueues g with
  | none =>
    simp only [publishQueuedUpdates_of_noflush now (Or.inl hqv), tagT, List.map_nil,
      List.append_nil]
    exact ⟨hsep, hlp, hqs⟩
  | some q =>
    cases q with
    | nil =>
      simp only [publishQueuedUpdates_of_noflush now (Or.inr hqv), tagT, List.map_nil,
        List.append_nil]
      exact ⟨hsep, hlp, hqs⟩
    | cons e rest =>
      rw [publishQueuedUpdates_of_flush now hqv (by simp)]
      set out := (collectLatest (e :: rest) []).map (fun kv => (g, kv.2.payload)) with hout
      have htag : ∀ x ∈ gTimes g (tagT out now), x = now := fun x hx => mem_gTimes_tagT hx
      unfold dueB at hdue
      cases hlpv : lookupA s.lastPublished g with
      | none =>
        have hnil : gTimes g log = [] := by
          by_contra hne
          obtain ⟨t, ht⟩ := List.exists_mem_of_ne_nil _ hne
          obtain ⟨lp, hlp', _⟩ := hlp t ht
          rw [hlpv] at hlp'
          exact Option.noConfusion hlp'
        refine ⟨?_, ?_, ?_⟩
        · intro t1 ht1 t2 ht2 hlt
          rw [gTimes_append, hnil, List.nil_append] at ht1 ht2
          have := htag t1 ht1
          have := htag t2 ht2
          omega
        · intro t ht
          rw [gTimes_append, hnil, List.nil_append] at ht
          refine ⟨now, by simp [lookupA_setA_self], ?_⟩
          rw [htag t ht]
        · intro _
          simp [lookupA_setA_self]
      | some lp =>
        rw [hlpv] at hdue
        have hgate : F ≤ now - lp := by simpa using hdue
        have hnow : lp + F ≤ now := by omega
        have hbound : ∀ t ∈ gTimes g log, t ≤ lp := by
          intro t ht
          obtain ⟨lp', hlp', hle⟩ := hlp t ht
          rw [hlpv] at hlp'
          cases hlp'
          exact hle
        refine ⟨?_, ?_, ?_⟩
        · intro t1 ht1 t2 ht2 hlt
          rw [gTimes_append] at ht1 ht2
          rcases List.mem_append.mp ht1 with h1 | h1 <;>
            rcases List.mem_append.mp ht2 with h2 | h2
          · exact hsep t1 h1 t2 h2 hlt
          · have := hbound t1 h1
            have := htag t2 h2
            omega
          · have := htag t1 h1
            have := hbound t2 h2
            omega
          · have := htag t1 h1
            have := htag t2 h2
            omega
        · intro t ht
          rw [gTimes_append] at ht
          refine ⟨now, by simp [lookupA_setA_self], ?_⟩
          rcases List.mem_append.mp ht with h | h
          · have := hbound t h
            omega
          · rw [htag t h]
        · intro _
          simp [lookupA_setA_self]

/-- One flush pass preserves the invariant, provided every entry of the
snapshot that names `g` carries frequency `F`. -/
theorem processEntries_rateCore {alpha : Type} (g : String) (F : Nat) (hF : 1 ≤ F)
    (fm now : Nat) (es : List (String × Nat)) :
    ∀ (s : BatcherState alpha) (log), (∀ pr ∈ es, pr.1 = g → pr.2 = F) →
      RateCore g F s log →
      RateCore g F (processEntries fm now es s).1
        (log ++ tagT (processEntries fm now es s).2 now) := by
  induction es with
  | nil =>
    intro s log _ hc
    simpa [processEntries, tagT] using hc
  | cons hd rest ih =>
    intro s log hes hc
    obtain ⟨g0, f⟩ := hd
    have hes' : ∀ pr ∈ rest, pr.1 = g → pr.2 = F := fun pr hpr => hes pr (by simp [hpr])
    by_cases hf : f = fm
    · by_cases hdg : dueB fm now s g0 = true
      · simp only [processEntries, if_pos hf, hdg, if_true]
        have htag : tagT ((publishQueuedUpdates g0 now s).2 ++
            (processEntries fm now rest (publishQueuedUpdates g0 now s).1).2) now =
            tagT (publishQueuedUpdates g0 now s).2 now ++
            tagT (processEntries fm now rest (publishQueuedUpdates g0 now s).1).2 now := by
          simp [tagT]
        rw [htag, ← List.append_assoc]
        by_cases hgg : g0 = g
        · subst hgg
          have hfmF : fm = F := by
            rw [← hf]
            exact hes (g0, f) (by simp) rfl
          subst hfmF
          exact ih _ _ hes' (rateCore_pub_self hF hc hdg)
        · exact ih _ _ hes' (rateCore_pub_ne hgg hc)
      · simp only [processEntries, if_pos hf, hdg, if_false]
        exact ih s log hes' hc
    · simp only [processEntries, if_neg hf]
      exact ih s log hes' hc

/-- Full invariant: the core plus "every frequency entry for `g` is `F`". -/
def RateInv {alpha : Type} (g : String) (F : Nat) (s : BatcherState alpha)
    (log : List (String × alpha × Nat)) : Prop :=
  RateCore g F s log ∧ ∀ pr ∈ s.groupFrequencies, pr.1 = g → pr.2 = F

theorem rateInv_tick {alpha : Type} {g : String} {F : Nat} (hF : 1 ≤ F) (fm t : Nat)
    {s : BatcherState alpha} {log} (h : RateInv g F s log) :
    RateInv g F (processQueuesAtFrequency fm t s).1
      (log ++ tagT (processQueuesAtFrequency fm t s).2 t) := by
  constructor
  · exact processEntries_rateCore g F hF fm t s.groupFrequencies s log h.2 h.1
  · rw [show (processQueuesAtFrequency fm t s).1 = (processEntries fm t s.groupFrequencies s).1
      from rfl, (processEntries_fields fm t s.groupFrequencies s).1]
    exact h.2

theorem rateInv_enqueue {alpha : Type} {g : String} {F : Nat} (g0 : String) (p0 : alpha)
    (u0 d0 : String) (fm0 t : Nat) (hgf : g0 = g → fm0 = F)
    {s : BatcherState alpha} {log} (h : RateInv g F s log) :
    RateInv g F (enqueueCore g0 p0 u0 d0 fm0 t s) log := by
  obtain ⟨⟨hsep, hlp, hqs⟩, hfreq⟩ := h
  refine ⟨⟨hsep, ?_, ?_⟩, ?_⟩
  · by_cases hg : g0 = g
    · subst hg
      cases hq0 : lookupA s.groupQueues g0 with
      | some q =>
        rw [enqueueCore_lastPublished_keep p0 u0 d0 fm0 t (by simp [hq0])]
        exact hlp
      | none =>
        have hnil : gTimes g0 log = [] := by
          by_contra hne
          have := hqs hne
          rw [hq0] at this
          simp at this
        intro t' ht'
        rw [hnil] at ht'
        simp at ht'
    · intro t' ht'
      rw [enqueueCore_lastPublished_ne (fun he => hg he.symm) p0 u0 d0 fm0 t s]
      exact hlp t' ht'
  · intro hne
    by_cases hg : g0 = g
    · subst hg
      rw [enqueueCore_queue_self]
      simp
    · rw [enqueueCore_queue_ne (fun he => hg he.symm) p0 u0 d0 fm0 t s]
      exact hqs hne
  · rw [enqueueCore_gF_eq]
    intro pr hpr hprg
    rcases mem_setA_elim hpr with hin | heq
    · exact hfreq pr hin hprg
    · rw [heq] at hprg ⊢
      exact hgf hprg

theorem rateInv_queueStep {alpha : Type} {g : String} {F : Nat} (hF : 1 ≤ F) (g0 : String)
    (p0 : alpha) (u0 d0 : String) (fs t : Nat) (hgf : g0 = g → fs * 1000 = F)
    {s : BatcherState alpha} {log} (h : RateInv g F s log) :
    RateInv g F (queueLocationUpdate g0 p0 u0 d0 fs t s).1
      (log ++ tagT (queueLocationUpdate g0 p0 u0 d0 fs t s).2 t) := by
  have h3 := rateInv_enqueue g0 p0 u0 d0 (fs * 1000) t hgf h
  by_cases hct : (fs * 1000) ∈ (enqueueCore g0 p0 u0 d0 (fs * 1000) t s).intervalTimers
  · have hcb : (enqueueCore g0 p0 u0 d0 (fs * 1000) t s).intervalTimers.contains
        (fs * 1000) = true := by simpa using hct
    simp only [queueLocationUpdate]
    rw [if_pos hcb]
    simpa [tagT] using h3
  · have hcb : (enqueueCore g0 p0 u0 d0 (fs * 1000) t s).intervalTimers.contains
        (fs * 1000) = false := by simpa using hct
    simp only [queueLocationUpdate]
    rw [if_neg (by simpa using hct)]
    exact rateInv_tick hF (fs * 1000) t h3

theorem runB_rateInv {alpha : Type} (g : String) (Fs : Nat) (hFs : 1 ≤ Fs)
    (es : List (BEvent alpha)) :
    ∀ (s : BatcherState alpha) (log),
      (∀ p u d fs t, BEvent.queue g p u d fs t ∈ es → fs = Fs) →
      RateInv g (Fs * 1000) s log →
      RateInv g (Fs * 1000) (runB es s).1 (log ++ (runB es s).2) := by
  have hF : 1 ≤ Fs * 1000 := by omega
  induction es with
  | nil =>
    intro s log _ h
    simpa [runB] using h
  | cons e rest ih =>
    intro s log hq h
    have hqrest : ∀ p u d fs t, BEvent.queue g p u d fs t ∈ rest → fs = Fs :=
      fun p u d fs t hm => hq p u d fs t (by simp [hm])
    cases e with
    | queue g0 p0 u0 d0 fs t =>
      have hgf : g0 = g → fs * 1000 = Fs * 1000 := by
        intro hg
        subst hg
        have : fs = Fs := hq p0 u0 d0 fs t (by simp)
        rw [this]
      have hstep := rateInv_queueStep hF g0 p0 u0 d0 fs t hgf h
      have := ih (queueLocationUpdate g0 p0 u0 d0 fs t s).1
        (log ++ tagT (queueLocationUpdate g0 p0 u0 d0 fs t s).2 t) hqrest hstep
      simp only [runB, stepB]
      rw [← List.append_assoc]
      exact this
    | tick fm t =>
      have hstep := rateInv_tick hF fm t h
      have := ih (processQueuesAtFrequency fm t s).1
        (log ++ tagT (processQueuesAtFrequency fm t s).2 t) hqrest hstep
      simp only [runB, stepB]
      rw [← List.append_assoc]
      exact this

/-- C4: both halves of the flush-timing claim. (a) Rate limit: in any run
of queue calls and timer ticks starting from the initial batcher where
every queue call for group `g` uses frequency `Fs` seconds, any two
distinct times at which `g` is flushed to the bus are at least `Fs * 1000`
milliseconds apart — the gate `elapsed ≥ frequency` plus the stamp written
at each flush enforce it. (b) First flush: a brand-new group's
last-published stamp is initialised to the epoch (`new Date(0)`, treated
as infinitely long ago), so at any tick at least `Fs * 1000` milliseconds
past the epoch — i.e. any realistic wall-clock time — the group's very
first flush fires regardless of how recently the update was queued: no
hypothesis relates the queueing time `t0` to the tick time `t1`. -/
theorem flush_rate_limit_and_first_flush {alpha : Type} :
    (∀ (es : List (BEvent alpha)) (g : String) (Fs : Nat), 1 ≤ Fs →
      (∀ p u d fs t, BEvent.queue g p u d fs t ∈ es → fs = Fs) →
      ∀ t1 ∈ gTimes g (runB es initBatcher).2, ∀ t2 ∈ gTimes g (runB es initBatcher).2,
        t1 < t2 → t1 + Fs * 1000 ≤ t2) ∧
    (∀ (s : BatcherState alpha) (g : String) (p : alpha) (u d : String) (Fs t0 t1 : Nat),
      lookupA s.groupQueues g = none → lookupA s.groupFrequencies g = none →
      (Fs * 1000) ∈ s.intervalTimers → Fs * 1000 ≤ t1 →
      (g, p) ∈ (processQueuesAtFrequency (Fs * 1000) t1
        (queueLocationUpdate g p u d Fs t0 s).1).2) := by
  constructor
  · intro es g Fs hFs hqc t1 ht1 t2 ht2 hlt
    have hinit : RateInv g (Fs * 1000) (initBatcher : BatcherState alpha) [] := by
      refine ⟨⟨?_, ?_, ?_⟩, ?_⟩ <;> simp [gTimes, initBatcher]
    have hrun := runB_rateInv g Fs hFs es initBatcher [] hqc hinit
    rw [List.nil_append] at hrun
    exact hrun.1.1 t1 ht1 t2 ht2 hlt
  · intro s g p u d Fs t0 t1 hq hf htimer hclock
    have hcb : (enqueueCore g p u d (Fs * 1000) t0 s).intervalTimers.contains
        (Fs * 1000) = true := by
      rw [enqueueCore_timers]
      simpa using htimer
    have hstate : (queueLocationUpdate g p u d Fs t0 s).1
        = enqueueCore g p u d (Fs * 1000) t0 s := by
      simp only [queueLocationUpdate]
      rw [if_pos hcb]
    rw [hstate]
    exact fresh_enqueue_then_process g p u d (Fs * 1000) t0 t1 s hq hf hclock

/-- Witness for C4. Rate-limit half: in the concrete run below group
`grp` flushes at 40000 and 90000 (50 seconds apart at a 30-second
frequency). First-flush half: with the 30s timer already present, an
update queued at time 50 is published by a tick at time 30000 — zero
relation between enqueue time and tick time. -/
theorem flush_rate_limit_and_first_flush_witness :
    40000 + 30 * 1000 ≤ 90000 ∧
    ("grp", (7 : Nat)) ∈ (processQueuesAtFrequency (30 * 1000) 30000
      (queueLocationUpdate "grp" (7 : Nat) "u" "d" 30 50
        (⟨[], [], [], [30000], [30000]⟩ : BatcherState Nat)).1).2 := by
  constructor
  · exact (@flush_rate_limit_and_first_flush Nat).1
      [BEvent.queue "grp" 1 "u" "d" 30 40000, BEvent.tick 30000 40000,
       BEvent.queue "grp" 2 "u" "d" 30 50000, BEvent.tick 30000 90000]
      "grp" 30 (by decide)
      (by
        intro p u d fs t hm
        simp only [List.mem_cons, List.not_mem_nil, or_false] at hm
        rcases hm with h | h | h | h <;> cases h <;> rfl)
      40000 (by decide) 90000 (by decide) (by decide)
  · exact (@flush_rate_limit_and_first_flush Nat).2
      (⟨[], [], [], [30000], [30000]⟩ : BatcherState Nat) "grp" (7 : Nat) "u" "d" 30 50 30000
      (by decide) (by decide) (by decide) (by decide)

/-! ## Pending-queue invariant for C3 -/

/-- The pending queue of a group (`groupQueues.get(g)`, empty when absent). -/
def pendingQueue {alpha : Type} (s : BatcherState alpha) (g : String) :
    List (QueuedLocationUpdate alpha) :=
  (lookupA s.groupQueues g).getD []

theorem processEntries_pending_cases {alpha : Type} (fm now : Nat) (es : List (String × Nat))
    (s : BatcherState alpha) (g : String) :
    pendingQueue (processEntries fm now es s).1 g = pendingQueue s g ∨
    pendingQueue (processEntries fm now es s).1 g = [] := by
  rcases processEntries_queue_cases fm now es s g with h | h
  · left
    simp [pendingQueue, h]
  · right
    simp [pendingQueue, h]

theorem queueStep_pending_cases {alpha : Type} (g0 : String) (p0 : alpha) (u0 d0 : String)
    (fs t : Nat) (s : BatcherState alpha) (g : String) :
    pendingQueue (queueLocationUpdate g0 p0 u0 d0 fs t s).1 g =
      pendingQueue (enqueueCore g0 p0 u0 d0 (fs * 1000) t s) g ∨
    pendingQueue (queueLocationUpdate g0 p0 u0 d0 fs t s).1 g = [] := by
  by_cases hct : (enqueueCore g0 p0 u0 d0 (fs * 1000) t s).intervalTimers.contains
      (fs * 1000) = true
  · left
    simp only [queueLocationUpdate]
    rw [if_pos hct]
  · simp only [queueLocationUpdate]
    rw [if_neg hct]
    exact processEntries_pending_cases (fs * 1000) t _ _ g

theorem enqueueCore_pending_self {alpha : Type} (g : String) (p : alpha) (u d : String)
    (fm now : Nat) (s : BatcherState alpha) :
    pendingQueue (enqueueCore g p u d fm now s) g =
      ((pendingQueue s g).filter
        (fun e => !(decide (e.userId = u ∧ e.deviceId = d)))) ++ [⟨p, u, d, now⟩] := by
  simp [pendingQueue, enqueueCore_queue_self]

theorem enqueueCore_pending_ne {alpha : Type} {g g' : String} (h : g' ≠ g) (p : alpha)
    (u d : String) (fm now : Nat) (s : BatcherState alpha) :
    pendingQueue (enqueueCore g p u d fm now s) g' = pendingQueue s g' := by
  simp [pendingQueue, enqueueCore_queue_ne h]

/-- At most one pending entry per exact `(userId, deviceId)` pair, in
every group. -/
def PendOne {alpha : Type} (s : BatcherState alpha) : Prop :=
  ∀ g u d, ((pendingQueue s g).filter
    (fun e => decide (e.userId = u ∧ e.deviceId = d))).length ≤ 1

/-- Every pending entry's payload is the one recorded by `Q` for its key. -/
def PendLast {alpha : Type} (Q : String → String → String → Option alpha)
    (s : BatcherState alpha) : Prop :=
  ∀ g, ∀ e ∈ pendingQueue s g, Q g e.userId e.deviceId = some e.payload

theorem pendOne_transfer {alpha : Type} {s s' : BatcherState alpha}
    (hcase : ∀ g, pendingQueue s' g = pendingQueue s g ∨ pendingQueue s' g = [])
    (h : PendOne s) : PendOne s' := by
  intro g u d
  rcases hcase g with hc | hc
  · rw [hc]
    exact h g u d
  · rw [hc]
    simp

theorem pendLast_transfer {alpha : Type} {Q} {s s' : BatcherState alpha}
    (hcase : ∀ g, pendingQueue s' g = pendingQueue s g ∨ pendingQueue s' g = [])
    (h : PendLast Q s) : PendLast Q s' := by
  intro g e he
  rcases hcase g with hc | hc
  · rw [hc] at he
    exact h g e he
  · rw [hc] at he
    simp at he

theorem pendLast_congr {alpha : Type} {Q Q' : String → String → String → Option alpha}
    {s : BatcherState alpha} (hpt : ∀ g u d, Q g u d = Q' g u d) (h : PendLast Q s) :
    PendLast Q' s := by
  intro g e he
  rw [← hpt]
  exact h g e he

theorem filter_not_filter {beta : Type} (p : beta → Bool) (l : List beta) :
    (l.filter (fun e => !(p e))).filter p = [] := by
  induction l with
  | nil => simp
  | cons a t ih =>
    by_cases hp : p a
    · simp [List.filter_cons, hp, ih]
    · simp only [List.filter_cons, hp, Bool.not_false, if_true]
      simp [List.filter_cons, hp, ih]

theorem pendOne_enqueue {alpha : Type} (g0 : String) (p0 : alpha) (u0 d0 : String)
    (fm t : Nat) {s : BatcherState alpha} (h : PendOne s) :
    PendOne (enqueueCore g0 p0 u0 d0 fm t s) := by
  intro g u d
  by_cases hg : g = g0
  · subst hg
    rw [enqueueCore_pending_self, List.filter_append]
    by_cases hud : u0 = u ∧ d0 = d
    · obtain ⟨hu, hd⟩ := hud
      subst hu
      subst hd
      rw [filter_not_filter]
      simp
    · have hnew : (decide ((⟨p0, u0, d0, t⟩ : QueuedLocationUpdate alpha).userId = u ∧
          (⟨p0, u0, d0, t⟩ : QueuedLocationUpdate alpha).deviceId = d)) = false := by
        simpa using hud
      have hsub : List.Sublist
          (((pendingQueue s g).filter
            (fun e => !(decide (e.userId = u0 ∧ e.deviceId = d0)))).filter
            (fun e => decide (e.userId = u ∧ e.deviceId = d)))
          ((pendingQueue s g).filter (fun e => decide (e.userId = u ∧ e.deviceId = d))) :=
        (List.filter_sublist _).filter _
      have hlen := hsub.length_le
      have := h g u d
      simp only [List.filter_cons, hnew, Bool.false_eq_true, if_false, List.filter_nil,
        List.append_nil, List.length_append]
      omega
  · rw [enqueueCore_pending_ne hg p0 u0 d0 fm t s]
    exact h g u d

theorem pendLast_enqueue {alpha : Type} (g0 : String) (p0 : alpha) (u0 d0 : String)
    (fm t : Nat) {s : BatcherState alpha} {Q} (h : PendLast Q s) :
    PendLast (fun g u d => if g0 = g ∧ u0 = u ∧ d0 = d then some p0 else Q g u d)
      (enqueueCore g0 p0 u0 d0 fm t s) := by
  intro g e he
  show (if g0 = g ∧ u0 = e.userId ∧ d0 = e.deviceId then some p0 else Q g e.userId e.deviceId)
      = some e.payload
  by_cases hcond : g0 = g ∧ u0 = e.userId ∧ d0 = e.deviceId
  · obtain ⟨hgg, huu, hdd⟩ := hcond
    rw [if_pos ⟨hgg, huu, hdd⟩]
    rw [← hgg] at he
    rw [enqueueCore_pending_self] at he
    rcases List.mem_append.mp he with he' | he'
    · exfalso
      have hkey := List.of_mem_filter he'
      have hcn : e.userId = u0 ∧ e.deviceId = d0 := ⟨huu.symm, hdd.symm⟩
      simp [hcn] at hkey
    · simp only [List.mem_singleton] at he'
      subst he'
      simp
  · rw [if_neg hcond]
    by_cases hg : g = g0
    · subst hg
      rw [enqueueCore_pending_self] at he
      rcases List.mem_append.mp he with he' | he'
      · exact h g e (List.mem_of_mem_filter he')
      · simp only [List.mem_singleton] at he'
        subst he'
        exact absurd ⟨rfl, rfl, rfl⟩ hcond
    · rw [enqueueCore_pending_ne hg p0 u0 d0 fm t s] at he
      exact h g e he

/-- `lastQueued` over remaining events, falling back to an accumulated
assignment `Q` for keys the remaining events never queue. -/
def lastQFrom {alpha : Type} (Q : String → String → String → Option alpha)
    (es : List (BEvent alpha)) (g u d : String) : Option alpha :=
  match lastQueued es g u d with
  | some p => some p
  | none => Q g u d

theorem lastQFrom_nil {alpha : Type} (Q : String → String → String → Option alpha)
    (g u d : String) : lastQFrom Q [] g u d = Q g u d := by
  simp [lastQFrom, lastQueued]

theorem lastQFrom_none {alpha : Type} (es : List (BEvent alpha)) (g u d : String) :
    lastQFrom (fun _ _ _ => none) es g u d = lastQueued es g u d := by
  cases h : lastQueued es g u d with
  | none => simp [lastQFrom, h]
  | some p => simp [lastQFrom, h]

theorem lastQFrom_cons {alpha : Type} (Q : String → String → String → Option alpha)
    (e : BEvent alpha) (rest : List (BEvent alpha)) (g u d : String) :
    lastQFrom Q (e :: rest) g u d =
      lastQFrom (fun g' u' d' => lastQFrom Q [e] g' u' d') rest g u d := by
  cases hr : lastQueued rest g u d with
  | some p => simp [lastQFrom, lastQueued, hr]
  | none => cases e <;> simp [lastQFrom, lastQueued, hr]

theorem lastQFrom_queue_event {alpha : Type} (Q : String → String → String → Option alpha)
    (g0 : String) (p0 : alpha) (u0 d0 : String) (fs t : Nat) (g u d : String) :
    lastQFrom Q [BEvent.queue g0 p0 u0 d0 fs t] g u d =
      if g0 = g ∧ u0 = u ∧ d0 = d then some p0 else Q g u d := by
  by_cases hc : g0 = g ∧ u0 = u ∧ d0 = d <;> simp [lastQFrom, lastQueued, hc]

theorem lastQFrom_tick_event {alpha : Type} (Q : String → String → String → Option alpha)
    (fm t : Nat) (g u d : String) :
    lastQFrom Q [BEvent.tick fm t] g u d = Q g u d := by
  simp [lastQFrom, lastQueued]

theorem runB_pending {alpha : Type} (es : List (BEvent alpha)) :
    ∀ (s : BatcherState alpha) (Q), PendOne s → PendLast Q s →
      PendOne (runB es s).1 ∧
      PendLast (fun g u d => lastQFrom Q es g u d) (runB es s).1 := by
  induction es with
  | nil =>
    intro s Q h1 h2
    refine ⟨by simpa [runB] using h1, ?_⟩
    have : PendLast Q (runB ([] : List (BEvent alpha)) s).1 := by simpa [runB] using h2
    exact pendLast_congr (fun g u d => (lastQFrom_nil Q g u d).symm) this
  | cons ev rest ih =>
    intro s Q h1 h2
    cases ev with
    | queue g0 p0 u0 d0 fs t =>
      have hcase := queueStep_pending_cases g0 p0 u0 d0 fs t s
      have h1' := pendOne_transfer hcase (pendOne_enqueue g0 p0 u0 d0 (fs * 1000) t h1)
      have h2' := pendLast_transfer hcase (pendLast_enqueue g0 p0 u0 d0 (fs * 1000) t h2)
      have h2'' := pendLast_congr
        (fun g u d => (lastQFrom_queue_event Q g0 p0 u0 d0 fs t g u d).symm) h2'
      have hrun := ih (queueLocationUpdate g0 p0 u0 d0 fs t s).1
        (fun g' u' d' => lastQFrom Q [BEvent.queue g0 p0 u0 d0 fs t] g' u' d') h1' h2''
      refine ⟨by simpa [runB, stepB] using hrun.1, ?_⟩
      have := pendLast_congr
        (fun g u d => (lastQFrom_cons Q (BEvent.queue g0 p0 u0 d0 fs t) rest g u d).symm)
        hrun.2
      simpa [runB, stepB] using this
    | tick fm t =>
      have hcase := processEntries_pending_cases fm t s.groupFrequencies s
      have h1' := pendOne_transfer hcase h1
      have h2' := pendLast_transfer hcase h2
      have h2'' := pendLast_congr
        (fun g u d => (lastQFrom_tick_event Q fm t g u d).symm) h2'
      have hrun := ih (processQueuesAtFrequency fm t s).1
        (fun g' u' d' => lastQFrom Q [BEvent.tick fm t] g' u' d') h1' h2''
      refine ⟨by simpa [runB, stepB] using hrun.1, ?_⟩
      have := pendLast_congr
        (fun g u d => (lastQFrom_cons Q (BEvent.tick fm t) rest g u d).symm) hrun.2
      simpa [runB, stepB] using this

/-- C3: after any sequence of queue calls and ticks starting from the
initial batcher, every group's pending queue holds at most one entry per
exact `(userId, deviceId)` pair, and a pending entry for a pair carries
the payload of the last `queueLocationUpdate` call made for that pair. -/
theorem at_most_one_pending_per_device {alpha : Type} (es : List (BEvent alpha))
    (g u d : String) :
    ((pendingQueue (runB es initBatcher).1 g).filter
      (fun e => decide (e.userId = u ∧ e.deviceId = d))).length ≤ 1 ∧
    (∀ e ∈ pendingQueue (runB es initBatcher).1 g, e.userId = u → e.deviceId = d →
      lastQueued es g u d = some e.payload) := by
  have h := runB_pending es initBatcher (fun _ _ _ => none)
    (by intro g' u' d'; simp [pendingQueue, initBatcher, lookupA])
    (by intro g' e he; simp [pendingQueue, initBatcher, lookupA] at he)
  refine ⟨h.1 g u d, ?_⟩
  intro e he hu hd
  have hq : lastQFrom (fun _ _ _ => none) es g e.userId e.deviceId = some e.payload :=
    h.2 g e he
  rw [lastQFrom_none] at hq
  rw [hu, hd] at hq
  exact hq

/-- Witness for C3: two queue calls for the same pair leave one entry
whose payload is the second call's. -/
theorem at_most_one_pending_per_device_witness :
    ((pendingQueue (runB [BEvent.queue "grp" (5 : Nat) "u" "d" 30 100,
        BEvent.queue "grp" (7 : Nat) "u" "d" 30 200] initBatcher).1 "grp").filter
      (fun e => decide (e.userId = "u" ∧ e.deviceId = "d"))).length ≤ 1 ∧
    lastQueued [BEvent.queue "grp" (5 : Nat) "u" "d" 30 100,
        BEvent.queue "grp" (7 : Nat) "u" "d" 30 200] "grp" "u" "d" = some 7 := by
  have h := at_most_one_pending_per_device
    [BEvent.queue "grp" (5 : Nat) "u" "d" 30 100,
     BEvent.queue "grp" (7 : Nat) "u" "d" 30 200] "grp" "u" "d"
  exact ⟨h.1, h.2 ⟨7, "u", "d", 200⟩ (by decide) rfl rfl⟩

/-! ## Dedup invariant for C5 -/

theorem lookupA_some_mem {kappa beta : Type} [DecidableEq kappa]
    {l : List (kappa × beta)} {k : kappa} {v : beta} (h : lookupA l k = some v) :
    (k, v) ∈ l := by
  induction l with
  | nil => simp [lookupA] at h
  | cons hd t ih =>
    obtain ⟨k', v'⟩ := hd
    by_cases hk : k' = k
    · simp only [lookupA, if_pos hk] at h
      cases h
      simp [hk]
    · simp only [lookupA, if_neg hk] at h
      simp [ih h]

theorem lookupA_of_mem_nodup {kappa beta : Type} [DecidableEq kappa]
    {l : List (kappa × beta)} (hnd : (l.map Prod.fst).Nodup) {kv : kappa × beta}
    (h : kv ∈ l) : lookupA l kv.1 = some kv.2 := by
  induction l with
  | nil => simp at h
  | cons hd t ih =>
    obtain ⟨k', v'⟩ := hd
    simp only [List.map_cons, List.nodup_cons] at hnd
    rcases List.mem_cons.mp h with h' | h'
    · rw [h']
      simp [lookupA]
    · have hk : k' ≠ kv.1 := by
        intro he
        exact hnd.1 (he ▸ List.mem_map.mpr ⟨kv, h', rfl⟩)
      simp only [lookupA, if_neg hk]
      exact ih hnd.2 h'

theorem map_fst_setA_of_some {kappa beta : Type} [DecidableEq kappa]
    {l : List (kappa × beta)} {k : kappa} {v0 : beta} (h : lookupA l k = some v0)
    (v : beta) : (setA l k v).map Prod.fst = l.map Prod.fst := by
  induction l with
  | nil => simp [lookupA] at h
  | cons hd t ih =>
    obtain ⟨k', v'⟩ := hd
    by_cases hk : k' = k
    · simp [setA, hk]
    · simp only [lookupA, if_neg hk] at h
      simp [setA, hk, ih h]

theorem length_setA_of_some {kappa beta : Type} [DecidableEq kappa]
    {l : List (kappa × beta)} {k : kappa} {v0 : beta} (h : lookupA l k = some v0)
    (v : beta) : (setA l k v).length = l.length := by
  induction l with
  | nil => simp [lookupA] at h
  | cons hd t ih =>
    obtain ⟨k', v'⟩ := hd
    by_cases hk : k' = k
    · simp [setA, hk]
    · simp only [lookupA, if_neg hk] at h
      simp [setA, hk, ih h]

theorem mem_setA_nodup {kappa beta : Type} [DecidableEq kappa]
    {l : List (kappa × beta)} (hnd : (l.map Prod.fst).Nodup) {k : kappa} {v : beta}
    {p : kappa × beta} (h : p ∈ setA l k v) : (p ∈ l ∧ p.1 ≠ k) ∨ p = (k, v) := by
  induction l with
  | nil =>
    simp [setA] at h
    right
    simp [h]
  | cons hd t ih =>
    obtain ⟨k', v'⟩ := hd
    simp only [List.map_cons, List.nodup_cons] at hnd
    by_cases hk : k' = k
    · simp only [setA, if_pos hk, List.mem_cons] at h
      rcases h with h | h
      · right
        exact h
      · left
        refine ⟨by simp [h], ?_⟩
        intro he
        subst hk
        exact hnd.1 (he ▸ List.mem_map.mpr ⟨p, h, rfl⟩)
    · simp only [setA, if_neg hk, List.mem_cons] at h
      rcases h with h | h
      · left
        constructor
        · simp [h]
        · rw [h]
          exact hk
      · rcases ih hnd.2 h with ⟨h1, h2⟩ | h1
        · exact Or.inl ⟨by simp [h1], h2⟩
        · exact Or.inr h1

theorem lookupA_none_not_mem_fst {kappa beta : Type} [DecidableEq kappa]
    {l : List (kappa × beta)} {k : kappa} (h : lookupA l k = none) :
    k ∉ l.map Prod.fst := by
  intro hm
  obtain ⟨p, hp, hpk⟩ := List.mem_map.mp hm
  exact (lookupA_eq_none_iff l k).mp h p hp hpk

/-- Invariant of the `latestUpdates` fold: the accumulator has duplicate-free
keys, each binding's key is its entry's dedup key, each bound entry comes
from the processed prefix and is at least as fresh as every processed entry
with its key, every processed entry's key is bound, and the accumulator has
exactly one binding per distinct processed key. -/
def CollectInv {alpha : Type} (processed : List (QueuedLocationUpdate alpha))
    (acc : List (String × QueuedLocationUpdate alpha)) : Prop :=
  ((acc.map Prod.fst).Nodup) ∧
  (∀ kv ∈ acc, kv.1 = qKey kv.2) ∧
  (∀ kv ∈ acc, kv.2 ∈ processed ∧
    ∀ e ∈ processed, qKey e = kv.1 → e.queuedAt ≤ kv.2.queuedAt) ∧
  (∀ e ∈ processed, qKey e ∈ acc.map Prod.fst) ∧
  acc.length = (processed.map qKey).toFinset.card

theorem collectInv_nil {alpha : Type} : CollectInv ([] : List (QueuedLocationUpdate alpha)) [] := by
  refine ⟨by simp, by simp, by simp, by simp, by simp⟩

theorem toFinset_map_append_singleton {alpha : Type}
    (processed : List (QueuedLocationUpdate alpha)) (u : QueuedLocationUpdate alpha) :
    ((processed ++ [u]).map qKey).toFinset
      = insert (qKey u) (processed.map qKey).toFinset := by
  rw [List.map_append]
  simp only [List.map_cons, List.map_nil, List.toFinset_append, List.toFinset_cons,
    List.toFinset_nil]
  rw [Finset.union_comm]
  exact (Finset.insert_eq _ _).symm

theorem collectInv_step {alpha : Type} (u : QueuedLocationUpdate alpha)
    (processed : List (QueuedLocationUpdate alpha))
    (acc : List (String × QueuedLocationUpdate alpha)) (h : CollectInv processed acc) :
    CollectInv (processed ++ [u])
      (match lookupA acc (qKey u) with
       | none => acc ++ [(qKey u, u)]
       | some existing =>
         if existing.queuedAt < u.queuedAt then setA acc (qKey u) u else acc) := by
  obtain ⟨hnd, hkey, hmax, hcov, hlen⟩ := h
  cases hl : lookupA acc (qKey u) with
  | none =>
    have hnotkeys : qKey u ∉ acc.map Prod.fst := lookupA_none_not_mem_fst hl
    have hnotproc : qKey u ∉ processed.map qKey := by
      intro hm
      obtain ⟨e, he, hek⟩ := List.mem_map.mp hm
      exact hnotkeys (hek ▸ hcov e he)
    refine ⟨?_, ?_, ?_, ?_, ?_⟩
    · rw [List.map_append]
      rw [List.nodup_append]
      refine ⟨hnd, by simp, ?_⟩
      intro a ha hb
      simp only [List.map_cons, List.map_nil, List.mem_singleton] at hb
      exact hnotkeys (hb ▸ ha)
    · intro kv hkv
      rcases List.mem_append.mp hkv with h' | h'
      · exact hkey kv h'
      · simp only [List.mem_singleton] at h'
        simp [h']
    · intro kv hkv
      rcases List.mem_append.mp hkv with h' | h'
      · obtain ⟨hin, hm⟩ := hmax kv h'
        refine ⟨by simp [hin], ?_⟩
        intro e he hek
        rcases List.mem_append.mp he with he' | he'
        · exact hm e he' hek
        · simp only [List.mem_singleton] at he'
          subst he'
          exfalso
          apply hnotkeys
          rw [hek]
          exact List.mem_map.mpr ⟨kv, h', rfl⟩
      · simp only [List.mem_singleton] at h'
        subst h'
        refine ⟨by simp, ?_⟩
        intro e he hek
        rcases List.mem_append.mp he with he' | he'
        · exfalso
          have hc := hcov e he'
          have hek' : qKey e = qKey u := hek
          rw [hek'] at hc
          exact hnotkeys hc
        · simp only [List.mem_singleton] at he'
          subst he'
          exact Nat.le_refl _
    · intro e he
      rcases List.mem_append.mp he with he' | he'
      · rw [List.map_append]
        exact List.mem_append.mpr (Or.inl (hcov e he'))
      · simp only [List.mem_singleton] at he'
        subst he'
        rw [List.map_append]
        simp
    · rw [List.length_append, toFinset_map_append_singleton,
        Finset.card_insert_of_not_mem (by simpa using hnotproc)]
      simp [hlen]
  | some existing =>
    have hmem : (qKey u, existing) ∈ acc := lookupA_some_mem hl
    have hexkey : qKey u = qKey existing := hkey (qKey u, existing) hmem
    have hexin : existing ∈ processed := (hmax (qKey u, existing) hmem).1
    have hexmax : ∀ e ∈ processed, qKey e = qKey u → e.queuedAt ≤ existing.queuedAt :=
      (hmax (qKey u, existing) hmem).2
    have hkeyproc : qKey u ∈ List.map qKey processed :=
      hexkey ▸ List.mem_map.mpr ⟨existing, hexin, rfl⟩
    have hcard : ((processed ++ [u]).map qKey).toFinset.card
        = ((processed.map qKey).toFinset).card := by
      rw [toFinset_map_append_singleton,
        Finset.insert_eq_self.mpr (by simpa using hkeyproc)]
    by_cases hlt : existing.queuedAt < u.queuedAt
    · simp only [if_pos hlt]
      have hfst := map_fst_setA_of_some hl u
      refine ⟨?_, ?_, ?_, ?_, ?_⟩
      · rw [hfst]
        exact hnd
      · intro kv hkv
        rcases mem_setA_nodup hnd hkv with ⟨h1, _⟩ | h1
        · exact hkey kv h1
        · simp [h1]
      · intro kv hkv
        rcases mem_setA_nodup hnd hkv with ⟨h1, h2⟩ | h1
        · obtain ⟨hin, hm⟩ := hmax kv h1
          refine ⟨by simp [hin], ?_⟩
          intro e he hek
          rcases List.mem_append.mp he with he' | he'
          · exact hm e he' hek
          · simp only [List.mem_singleton] at he'
            subst he'
            exact absurd hek.symm h2
        · subst h1
          refine ⟨by simp, ?_⟩
          intro e he hek
          show e.queuedAt ≤ u.queuedAt
          rcases List.mem_append.mp he with he' | he'
          · have hek' : qKey e = qKey u := hek
            have := hexmax e he' hek'
            omega
          · simp only [List.mem_singleton] at he'
            subst he'
            exact Nat.le_refl _
      · intro e he
        rw [hfst]
        rcases List.mem_append.mp he with he' | he'
        · exact hcov e he'
        · simp only [List.mem_singleton] at he'
          rw [he']
          exact List.mem_map.mpr ⟨(qKey u, existing), hmem, rfl⟩
      · rw [length_setA_of_some hl u, hcard]
        exact hlen
    · simp only [if_neg hlt]
      refine ⟨hnd, hkey, ?_, ?_, ?_⟩
      · intro kv hkv
        obtain ⟨hin, hm⟩ := hmax kv hkv
        refine ⟨by simp [hin], ?_⟩
        intro e he hek
        rcases List.mem_append.mp he with he' | he'
        · exact hm e he' hek
        · simp only [List.mem_singleton] at he'
          have hek2 : qKey u = kv.1 := by
            rw [← he']
            exact hek
          have hkv2 : existing = kv.2 := by
            have hkvkey : lookupA acc kv.1 = some kv.2 := lookupA_of_mem_nodup hnd hkv
            rw [← hek2] at hkvkey
            rw [hl] at hkvkey
            exact Option.some.inj hkvkey
          rw [he']
          show u.queuedAt ≤ kv.2.queuedAt
          rw [← hkv2]
          omega
      · intro e he
        rcases List.mem_append.mp he with he' | he'
        · exact hcov e he'
        · simp only [List.mem_singleton] at he'
          rw [he']
          exact List.mem_map.mpr ⟨(qKey u, existing), hmem, rfl⟩
      · rw [hcard]
        exact hlen

theorem collectLatest_inv {alpha : Type} (q : List (QueuedLocationUpdate alpha)) :
    ∀ (processed : List (QueuedLocationUpdate alpha))
      (acc : List (String × QueuedLocationUpdate alpha)),
      CollectInv processed acc → CollectInv (processed ++ q) (collectLatest q acc) := by
  induction q with
  | nil =>
    intro processed acc h
    simpa [collectLatest] using h
  | cons u rest ih =>
    intro processed acc h
    have hstep := collectInv_step u processed acc h
    rw [show processed ++ u :: rest = (processed ++ [u]) ++ rest by simp]
    cases hl : lookupA acc (qKey u) with
    | none =>
      rw [hl] at hstep
      simp only [collectLatest, hl]
      exact ih (processed ++ [u]) (acc ++ [(qKey u, u)]) (by simpa using hstep)
    | some existing =>
      rw [hl] at hstep
      by_cases hlt : existing.queuedAt < u.queuedAt
      · simp only [collectLatest, hl, if_pos hlt]
        exact ih (processed ++ [u]) (setA acc (qKey u) u) (by simpa [hlt] using hstep)
      · simp only [collectLatest, hl, if_neg hlt]
        exact ih (processed ++ [u]) acc (by simpa [hlt] using hstep)

/-- C5 counterexample: the flush deduplicates by the concatenated string
`userId + ":" + deviceId`, not by the `(userId, deviceId)` pair. Queue one
update for the pair `("a:b", "c")` and one for the distinct pair
`("a", "b:c")` — both map to the key `"a:b:c"`. Before the tick both
entries are pending (each is the unique, freshest entry for its own pair),
yet the due flush publishes only one payload: the entry for `("a:b", "c")`
is silently dropped, refuting "publishes each surviving entry's payload"
under per-pair deduplication. -/
theorem flush_dedup_pair_counterexample :
    pendingQueue (runB [BEvent.queue "g" (1 : Nat) "a:b" "c" 30 100,
        BEvent.queue "g" (2 : Nat) "a" "b:c" 30 200] initBatcher).1 "g" =
      [⟨1, "a:b", "c", 100⟩, ⟨2, "a", "b:c", 200⟩] ∧
    (runB [BEvent.queue "g" (1 : Nat) "a:b" "c" 30 100,
        BEvent.queue "g" (2 : Nat) "a" "b:c" 30 200,
        BEvent.tick 30000 50000] initBatcher).2 = [("g", 2, 50000)] := by
  constructor
  · rfl
  · rfl

/-- C5 amended: for a due group with a NON-EMPTY pending queue, the flush
clears the queue, stamps the last-published time to `now`, and publishes
exactly one payload per distinct concatenated key `userId:deviceId`
(which coincides with per-(userId, deviceId) deduplication only when
distinct pairs have distinct concatenated keys): every published payload
comes from a pending entry that is at least as fresh as every same-key
pending entry, and every pending entry has a same-key representative
among the published payloads. (An empty pending queue is a no-op: nothing
is published and the last-published time is not stamped.) -/
theorem flush_dedup_by_string_key {alpha : Type} (g : String) (now : Nat)
    (s : BatcherState alpha) (q : List (QueuedLocationUpdate alpha))
    (hq : lookupA s.groupQueues g = some q) (hne : q ≠ []) :
    lookupA (publishQueuedUpdates g now s).1.groupQueues g = some [] ∧
    lookupA (publishQueuedUpdates g now s).1.lastPublished g = some now ∧
    (publishQueuedUpdates g now s).2.length = (q.map qKey).toFinset.card ∧
    (∀ pr ∈ (publishQueuedUpdates g now s).2, pr.1 = g ∧
      ∃ e, e ∈ q ∧ pr.2 = e.payload ∧
        ∀ e2 ∈ q, qKey e2 = qKey e → e2.queuedAt ≤ e.queuedAt) ∧
    (∀ e ∈ q, ∃ pr ∈ (publishQueuedUpdates g now s).2, ∃ e2, e2 ∈ q ∧
      qKey e2 = qKey e ∧ pr.2 = e2.payload ∧
      ∀ e3 ∈ q, qKey e3 = qKey e → e3.queuedAt ≤ e2.queuedAt) := by
  have hinv : CollectInv q (collectLatest q []) := by
    have := collectLatest_inv q [] [] collectInv_nil
    simpa using this
  obtain ⟨hnd, hkey, hmax, hcov, hlen⟩ := hinv
  rw [publishQueuedUpdates_of_flush now hq hne]
  refine ⟨by simp [lookupA_setA_self], by simp [lookupA_setA_self], ?_, ?_, ?_⟩
  · simpa using hlen
  · intro pr hpr
    simp only [List.mem_map] at hpr
    obtain ⟨kv, hkv, hpr'⟩ := hpr
    subst hpr'
    refine ⟨rfl, kv.2, (hmax kv hkv).1, rfl, ?_⟩
    intro e2 he2 hk2
    exact (hmax kv hkv).2 e2 he2 (by rw [hk2, hkey kv hkv])
  · intro e he
    obtain ⟨kv, hkvmem, hkvk⟩ := List.mem_map.mp (hcov e he)
    refine ⟨(g, kv.2.payload), List.mem_map.mpr ⟨kv, hkvmem, rfl⟩, kv.2,
      (hmax kv hkvmem).1, ?_, rfl, ?_⟩
    · rw [← hkey kv hkvmem, hkvk]
    · intro e3 he3 hk3
      exact (hmax kv hkvmem).2 e3 he3 (by rw [hk3, hkvk])

/-- Witness for the amended C5: a due group with two pending entries for
two different devices publishes both, clears the queue and stamps the
flush time. -/
theorem flush_dedup_by_string_key_witness :
    lookupA (publishQueuedUpdates "g" 90000
      (⟨[("g", [⟨1, "u", "d1", 100⟩, ⟨2, "u", "d2", 150⟩])], [("g", 0)], [("g", 30000)],
        [30000], [30000]⟩ : BatcherState Nat)).1.groupQueues "g" = some [] ∧
    lookupA (publishQueuedUpdates "g" 90000
      (⟨[("g", [⟨1, "u", "d1", 100⟩, ⟨2, "u", "d2", 150⟩])], [("g", 0)], [("g", 30000)],
        [30000], [30000]⟩ : BatcherState Nat)).1.lastPublished "g" = some 90000 ∧
    (publishQueuedUpdates "g" 90000
      (⟨[("g", [⟨1, "u", "d1", 100⟩, ⟨2, "u", "d2", 150⟩])], [("g", 0)], [("g", 30000)],
        [30000], [30000]⟩ : BatcherState Nat)).2.length =
      (([⟨1, "u", "d1", 100⟩, ⟨2, "u", "d2", 150⟩] :
        List (QueuedLocationUpdate Nat)).map qKey).toFinset.card ∧
    (∀ pr ∈ (publishQueuedUpdates "g" 90000
      (⟨[("g", [⟨1, "u", "d1", 100⟩, ⟨2, "u", "d2", 150⟩])], [("g", 0)], [("g", 30000)],
        [30000], [30000]⟩ : BatcherState Nat)).2, pr.1 = "g" ∧
      ∃ e, e ∈ ([⟨1, "u", "d1", 100⟩, ⟨2, "u", "d2", 150⟩] :
          List (QueuedLocationUpdate Nat)) ∧ pr.2 = e.payload ∧
        ∀ e2 ∈ ([⟨1, "u", "d1", 100⟩, ⟨2, "u", "d2", 150⟩] :
          List (QueuedLocationUpdate Nat)), qKey e2 = qKey e →
            e2.queuedAt ≤ e.queuedAt) ∧
    (∀ e ∈ ([⟨1, "u", "d1", 100⟩, ⟨2, "u", "d2", 150⟩] :
        List (QueuedLocationUpdate Nat)), ∃ pr ∈ (publishQueuedUpdates "g" 90000
      (⟨[("g", [⟨1, "u", "d1", 100⟩, ⟨2, "u", "d2", 150⟩])], [("g", 0)], [("g", 30000)],
        [30000], [30000]⟩ : BatcherState Nat)).2, ∃ e2,
      e2 ∈ ([⟨1, "u", "d1", 100⟩, ⟨2, "u", "d2", 150⟩] :
        List (QueuedLocationUpdate Nat)) ∧
      qKey e2 = qKey e ∧ pr.2 = e2.payload ∧
      ∀ e3 ∈ ([⟨1, "u", "d1", 100⟩, ⟨2, "u", "d2", 150⟩] :
        List (QueuedLocationUpdate Nat)), qKey e3 = qKey e →
          e3.queuedAt ≤ e2.queuedAt) :=
  flush_dedup_by_string_key "g" 90000
    (⟨[("g", [⟨1, "u", "d1", 100⟩, ⟨2, "u", "d2", 150⟩])], [("g", 0)], [("g", 30000)],
      [30000], [30000]⟩ : BatcherState Nat)
    [⟨1, "u", "d1", 100⟩, ⟨2, "u", "d2", 150⟩] (by rfl) (by decide)

/-- C9: when the submitting user resolves to zero authorized target groups
— no non-pending membership at all, or a non-empty explicit `groupIds`
list sharing no group with the user's non-pending memberships — the POST
/locations handler returns an error response, and it does so before
producing any effect: in particular no `queueLocationUpdate` call reaches
the batching scheduler for that request. -/
theorem no_authorized_groups_rejected_before_queueing
    (req : IngestRequest) (ctx : IngestContext)
    (h : authorizedTargetGroups req ctx = []) :
    (postLocationHandler req ctx).1 = [] ∧
    (postLocationHandler req ctx).2.isSome = true := by
  cases hreq : req.explicitGroupIds with
  | none =>
    have hm : ctx.activeMemberships = [] := by
      simpa [authorizedTargetGroups, hreq] using h
    simp [postLocationHandler, resolveTargetGroupIds, hreq, hm]
  | some l =>
    by_cases hl : l.isEmpty
    · have hm : ctx.activeMemberships = [] := by
        simpa [authorizedTargetGroups, hreq, hl] using h
      simp [postLocationHandler, resolveTargetGroupIds, hreq, hl, hm]
    · have hvalid : ctx.activeMemberships.filter (fun g => decide (g ∈ l)) = [] := by
        simpa [authorizedTargetGroups, hreq, hl] using h
      have hlne : l ≠ [] := by
        intro he
        rw [he] at hl
        simp at hl
      have hinv : (l.filter (fun g =>
          !(decide (g ∈ ctx.activeMemberships.filter (fun g' => decide (g' ∈ l)))))) = l := by
        rw [hvalid]
        simp
      simp [postLocationHandler, resolveTargetGroupIds, hreq, hl, hvalid, hinv, hlne]

/-- Witness for C9: a request naming one group from a user with no
non-pending memberships is rejected with no effects recorded. -/
theorem no_authorized_groups_rejected_before_queueing_witness :
    (postLocationHandler ⟨some ["gX"]⟩ ⟨[], []⟩).1 = [] ∧
    (postLocationHandler ⟨some ["gX"]⟩ ⟨[], []⟩).2.isSome = true :=
  no_authorized_groups_rejected_before_queueing ⟨some ["gX"]⟩ ⟨[], []⟩ (by decide)

end GoFindMe
